import Mathlib

/-!
Verification of the MonteLab Monte Carlo poker equity engine.

The definitions below are a shallow embedding of the C++ sources
(`simulator.cpp`, `main.cpp`, `tools.cpp`).  Machine integers are
modelled as `Int`; `std::vector` as `List`; unchecked `operator[]`
accesses that are guarded by the source's own bounds checks are
modelled as `List.getD`.  The lookup tables `c_table` and `table`,
which the C++ class loads from a binary resource, are passed as
explicit parameters.
-/

namespace MonteLab

/-- Embedding of `Simulator::to_ckey` (simulator.cpp lines 15-30):
iterates over the hand, computes `table_index = (i+1)*53 + hand[i]`,
adds `c_table[table_index]` when the index is in bounds and otherwise
reports and returns 0 (the early `return 0`). -/
def to_ckeyAux (ct : List Int) : Nat → Int → List Int → Int
  | _, key, [] => key
  | i, key, c :: rest =>
    if 0 ≤ ((i : Int) + 1) * 53 + c ∧ ((i : Int) + 1) * 53 + c < (ct.length : Int) then
      to_ckeyAux ct (i + 1) (key + ct.getD (((i : Int) + 1) * 53 + c).toNat 0) rest
    else 0

/-- Embedding of `Simulator::to_ckey`: starts the accumulation at
position 0 with key 0. -/
def to_ckey (ct : List Int) (hand : List Int) : Int :=
  to_ckeyAux ct 0 0 hand

/-- One iteration of the substitution loop of
`Simulator::evaluate_selection` (simulator.cpp lines 108-131), at loop
counter `j`.  State is `(key, hand, max_score)`. -/
def evalStep (ct t sel rp : List Int) (st : Int × List Int × Int) (j : Nat) :
    Int × List Int × Int :=
  let key := st.1
  let hand := st.2.1
  let maxs := st.2.2
  if j + 1 < rp.length ∧ rp.getD j 0 < 5 ∧ rp.getD (j + 1) 0 < (sel.length : Int) then
    let r : Int := rp.getD j 0
    let s : Int := rp.getD (j + 1) 0
    let ixk : Int := (r + 1) * 53
    let index1 : Int := ixk + sel.getD s.toNat 0
    let index2 : Int := ixk + hand.getD r.toNat 0
    if 0 ≤ index1 ∧ index1 < (ct.length : Int) ∧ 0 ≤ index2 ∧ index2 < (ct.length : Int) then
      let key2 := key + ct.getD index1.toNat 0 - ct.getD index2.toNat 0
      let hand2 := hand.set r.toNat (sel.getD s.toNat 0)
      let maxs2 :=
        if 0 ≤ key2 ∧ key2 < (t.length : Int) then max maxs (t.getD key2.toNat 0) else maxs
      (key2, hand2, maxs2)
    else (key, hand, maxs)
  else (key, hand, maxs)

/-- The loop counters `j = 0, 2, ..., 38` of the substitution loop. -/
def stepIndices : List Nat := [0, 2, 4, 6, 8, 10, 12, 14, 16, 18, 20, 22, 24, 26, 28, 30, 32, 34, 36, 38]

/-- Embedding of `Simulator::evaluate_selection` (simulator.cpp lines
85-133): sorts the selection ascending, fails with sentinel -1 when it
has fewer than 7 cards, takes the base hand `selection[2..6]`, computes
its key, fails with sentinel 0 when the key is out of range of the
score table, and otherwise runs the 20 substitution steps tracking the
running maximum. -/
def evaluate_selection (ct t rp : List Int) (selection : List Int) : Int :=
  let sel := selection.insertionSort (· ≤ ·)
  if sel.length < 7 then -1
  else
    let hand := (sel.drop 2).take 5
    let key := to_ckey ct hand
    if 0 ≤ key ∧ key < (t.length : Int) then
      (List.foldl (evalStep ct t sel rp) (key, hand, t.getD key.toNat 0) stepIndices).2.2
    else 0

/-- Modelled from the spec: the fixed substitution table `replace`
(declared in `simulator.h`, which is not part of the provided sources).
The spec describes it as "a fixed table of 20 (replaced-position,
replacement-source-position) substitution steps — covering exactly the
21 five-card subsets of 7 cards reachable by single-card swaps from
the base".  Starting from the base subset at positions {2,...,6} of
the sorted 7-card selection, consecutive pairs `(replace[j],
replace[j+1])` give the hand slot to replace and the selection
position supplying the replacement. -/
def replaceTable : List Int :=
  [0, 1, 1, 2, 2, 3, 3, 4, 4, 5, 0, 0, 4, 6, 3, 5, 2, 4, 1, 3,
   1, 1, 2, 3, 3, 4, 4, 5, 2, 2, 4, 6, 3, 5, 3, 3, 4, 5, 4, 4]

/-- The substitution steps of `replaceTable` written as explicit
triples `(j, r, s)`: loop counter, replaced hand slot, replacement
source position. -/
def trSteps : List (Nat × Nat × Nat) :=
  [(0, 0, 1), (2, 1, 2), (4, 2, 3), (6, 3, 4), (8, 4, 5),
   (10, 0, 0), (12, 4, 6), (14, 3, 5), (16, 2, 4), (18, 1, 3),
   (20, 1, 1), (22, 2, 3), (24, 3, 4), (26, 4, 5), (28, 2, 2),
   (30, 4, 6), (32, 3, 5), (34, 3, 3), (36, 4, 5), (38, 4, 4)]

/-- The pure effect of one substitution step on the working 5-card
hand: slot `p.2.1` is overwritten with the selection card at position
`p.2.2`. -/
def subStep (sel : List Int) (hand : List Int) (p : Nat × Nat × Nat) : List Int :=
  hand.set p.2.1 (sel.getD p.2.2 0)

/-- Modelled from the spec: `score5` (section 4.3) sums per-(position,
card) contributions from the first table and looks the second table up
at that sum; no standalone 5-card scorer exists in the sources, where
the same two accesses appear inline in `evaluate_selection`.  Out of
range keys score 0, matching the evaluator's guarded accesses. -/
def score5 (ct t : List Int) (hand : List Int) : Int :=
  if 0 ≤ to_ckey ct hand ∧ to_ckey ct hand < (t.length : Int) then
    t.getD (to_ckey ct hand).toNat 0
  else 0

/-- The marking loop of `Simulator::get_remaining` (simulator.cpp
lines 36-40 and 42-48): sets `filled[card] = 1` for each card in
range, ignoring out-of-range values. -/
def markCards (cards : List Int) (filled : List Int) : List Int :=
  cards.foldl (fun f card => if 0 ≤ card ∧ card < 52 then f.set card.toNat 1 else f) filled

/-- The outer known-hands marking loop of `Simulator::get_remaining`. -/
def markHands (known_hands : List (List Int)) (filled : List Int) : List Int :=
  known_hands.foldl (fun f kh => markCards kh f) filled

/-- Embedding of `Simulator::get_remaining` (simulator.cpp lines
32-57): marks every card of the board and of each known hand in a
52-slot array and collects the unmarked card codes in order. -/
def get_remaining (comm_hand : List Int) (known_hands : List (List Int)) : List Int :=
  ((List.range 52).filter
    (fun i =>
      (markHands known_hands (markCards comm_hand (List.replicate 52 0))).getD i 0 = 0)).map
    (fun (i : Nat) => (i : Int))

/-- The per-trial sample size of `Simulator::fill_empty` (simulator.cpp
line 61): `c = players_unknown * 2 + 5 - comm_hand.size()`. -/
def fill_empty_needed (comm_hand : List Int) (players_unknown : Int) : Int :=
  players_unknown * 2 + 5 - (comm_hand.length : Int)

/-- The insufficient-cards guard of `Simulator::fill_empty`
(simulator.cpp lines 62-66): true exactly when the failure branch is
taken (a stderr report and an empty sample set, the `SamplingError` of
the spec). -/
def fill_empty_insufficient (comm_hand : List Int) (known_hands : List (List Int))
    (players_unknown : Int) : Bool :=
  decide (((get_remaining comm_hand known_hands).length : Int) <
    fill_empty_needed comm_hand players_unknown)

/-- Embedding of `Simulator::update_winners` (simulator.cpp lines
135-144): a strictly larger value resets the winner list to the seat
alone and raises the maximum, an equal value appends the seat, a
smaller value changes nothing.  Seat indices are the non-negative
loop counters of `simulate`. -/
def update_winners (my_val : Int) (max_val : Int) (ix : Nat) (winners : List Nat) :
    Int × List Nat :=
  if my_val > max_val then (my_val, [ix])
  else if my_val = max_val then (max_val, winners ++ [ix])
  else (max_val, winners)

/-- The winner accumulation of one trial of `Simulator::simulate`
(simulator.cpp lines 146-177) over the list of per-seat scores: seats
are processed in order with indices 0, 1, ..., starting from
`max_val = 0` and an empty winner list. -/
def run_trial (scores : List Int) : List Nat :=
  (scores.enum.foldl (fun st p => update_winners p.2 st.1 p.1 st.2) (0, [])).2

/-- The per-trial tally update of `Simulator::calculate` (simulator.cpp
lines 204-212): a single in-bounds winner receives a win, otherwise
every in-bounds winner receives a tie. -/
def credit (results : List (Int × Int)) (winners : List Nat) : List (Int × Int) :=
  if winners.length = 1 ∧ winners.getD 0 0 < results.length then
    results.set (winners.getD 0 0)
      ((results.getD (winners.getD 0 0) (0, 0)).1 + 1,
        (results.getD (winners.getD 0 0) (0, 0)).2)
  else
    winners.foldl
      (fun res w =>
        if w < res.length then
          res.set w ((res.getD w (0, 0)).1, (res.getD w (0, 0)).2 + 1)
        else res)
      results

/-- Splitter with the semantics of repeated `std::getline(ss, part,
sep)`: every separator starts a new segment. -/
def splitChar (sep : Char) : List Char → List (List Char)
  | [] => [[]]
  | c :: rest =>
    if c = sep then [] :: splitChar sep rest
    else
      match splitChar sep rest with
      | [] => [[c]]
      | t :: ts => (c :: t) :: ts

/-- `std::getline` over a `stringstream` yields no final empty segment
for a trailing separator and nothing at all for empty input. -/
def cppSplit (sep : Char) (s : List Char) : List (List Char) :=
  if s = [] then []
  else
    let parts := splitChar sep s
    if parts.getLast? = some [] then parts.dropLast else parts

/-- The rank check of `isValidCard` (main.cpp lines 24-26). -/
def validRank (c : Char) : Bool :=
  ('2' ≤ c && c ≤ '9') || c == 'T' || c == 'J' || c == 'Q' || c == 'K' || c == 'A'

/-- The suit check of `isValidCard` (main.cpp lines 27-28). -/
def validSuit (c : Char) : Bool :=
  c == 'c' || c == 'd' || c == 'h' || c == 's'

/-- Embedding of `isValidCard` (main.cpp lines 20-30): two characters,
a valid rank then a valid suit. -/
def isValidCard (card : List Char) : Bool :=
  match card with
  | [r, s] => validRank r && validSuit s
  | _ => false

/-- The token loop of `parseCards` (main.cpp lines 37-45): spaces are
stripped from each comma-separated token; a valid card is kept, an
invalid non-empty token aborts with the empty list (after a stderr
diagnostic), an empty token is skipped. -/
def parseCardsGo : List (List Char) → List (List Char) → List (List Char)
  | [], acc => acc.reverse
  | tok :: rest, acc =>
    let card := tok.filter (fun c => c ≠ ' ')
    if card ≠ [] ∧ isValidCard card = true then parseCardsGo rest (card :: acc)
    else if card ≠ [] then []
    else parseCardsGo rest acc

/-- Embedding of `parseCards` (main.cpp lines 32-47). -/
def parseCards (input : List Char) : List (List Char) :=
  if input = [] then [] else parseCardsGo (cppSplit ',' input) []

/-- Value of a leading digit run, used by the `std::stoi` model. -/
def takeDigitsVal (acc : Nat) : List Char → Nat
  | c :: rest => if c.isDigit then takeDigitsVal (acc * 10 + (c.toNat - 48)) rest else acc
  | [] => acc

/-- The digit-run core of the `std::stoi` model: fails when the first
character is not a digit. -/
def stoiCore (l : List Char) : Option Int :=
  match l with
  | c :: _ => if c.isDigit then some ((takeDigitsVal 0 l : Nat) : Int) else none
  | [] => none

/-- Model of `std::stoi`: skip leading whitespace, optional sign, then
a digit run whose absence raises `invalid_argument` (modelled as
`none`, which the daemon's catch block turns into an error response);
trailing junk is ignored.  Overflow (`out_of_range`) is not modelled:
the requests considered here stay far below `INT_MAX`. -/
def stoiOpt (s : List Char) : Option Int :=
  match s.dropWhile (fun c => c.isWhitespace) with
  | [] => none
  | c :: rest =>
    if c = '-' then (stoiCore rest).map (fun n => -n)
    else if c = '+' then stoiCore rest
    else stoiCore (c :: rest)

/-- The kinds of structured error responses of the daemon's CALC
handler (main.cpp lines 84-124) and of the unknown-command branch. -/
inductive ErrKind : Type
  | fmt | stoiFail | opp | iter | board5 | hole2 | dup | unknown
deriving DecidableEq, Repr

/-- Outcome of one CALC request: a structured error, or a simulation
run on the parsed board and hole cards. -/
inductive CalcOutcome : Type
  | err (k : ErrKind)
  | run (board hole : List (List Char)) (opp iters : Int)
deriving DecidableEq, Repr

/-- One stdout line of the daemon protocol: the READY signal, the
one-time marker, a structured error line, or a success line (whose
numeric rates depend on the random simulation and are abstracted). -/
inductive DOut : Type
  | ready | marker | errOut (k : ErrKind) | success
deriving DecidableEq, Repr

/-- The stdout line a CALC outcome produces. -/
def calcOutputs : CalcOutcome → DOut
  | .err k => .errOut k
  | .run _ _ _ _ => .success

/-- Whether a CALC outcome is a structured error (as opposed to a
simulation run). -/
def isErr : CalcOutcome → Bool
  | .err _ => true
  | .run _ _ _ _ => false

/-- Embedding of the CALC branch of `runDaemonMode` (main.cpp lines
76-140): split the parameter string on `|`, require 4 fields, parse
and range-check opponents and iterations, parse the board (at most 5
cards), parse the hole (exactly 2 cards), reject a duplicate among
board + hole (the sort/unique check detects exactly a repeated
element), and otherwise run the simulation. -/
def handleCalc (params : List Char) : CalcOutcome :=
  let parts := cppSplit '|' params
  if parts.length ≠ 4 then .err .fmt
  else
    match stoiOpt (parts.getD 2 []), stoiOpt (parts.getD 3 []) with
    | some opponents, some iterations =>
      if opponents < 1 ∨ opponents > 8 then .err .opp
      else if iterations < 100 ∨ iterations > 1000000 then .err .iter
      else
        let comm_hand := parseCards (parts.getD 0 [])
        if comm_hand.length > 5 then .err .board5
        else
          let hole_cards := parseCards (parts.getD 1 [])
          if hole_cards.length ≠ 2 then .err .hole2
          else if ¬(comm_hand ++ hole_cards).Nodup then .err .dup
          else .run comm_hand hole_cards opponents iterations
    | _, _ => .err .stoiFail

/-- The trailing-whitespace trim of the daemon loop (main.cpp line
64). -/
def trimRight (s : List Char) : List Char :=
  (s.reverse.dropWhile (fun c => c = ' ' ∨ c = '\n' ∨ c = '\r' ∨ c = '\t')).reverse

/-- The characters of the EXIT command. -/
def exitChars : List Char := ['E', 'X', 'I', 'T']

/-- The characters of the CALC command prefix. -/
def calcPrefix : List Char := ['C', 'A', 'L', 'C', ' ']

/-- Embedding of the command loop of `runDaemonMode` (main.cpp lines
63-145): per line, trim trailing whitespace; EXIT ends the loop with
no output; a CALC command first emits the one-time marker when it has
not been sent, then the outcome line; anything else emits an
unknown-command error.  The value is the list of stdout lines after
READY. -/
def daemonRun (marker_sent : Bool) : List (List Char) → List DOut
  | [] => []
  | cmd :: rest =>
    if trimRight cmd = exitChars then []
    else if (trimRight cmd).take 5 = calcPrefix then
      (if marker_sent then [] else [DOut.marker]) ++
        [calcOutputs (handleCalc ((trimRight cmd).drop 5))] ++ daemonRun true rest
    else DOut.errOut .unknown :: daemonRun marker_sent rest

/-- A whole daemon session: the READY signal, then the loop outputs. -/
def daemonSession (cmds : List (List Char)) : List DOut :=
  DOut.ready :: daemonRun false cmds

/-- Groups a byte list into 4-byte chunks (an incomplete trailing
chunk, impossible under the size check, is dropped). -/
def chunk4 : List Nat → List (List Nat)
  | b0 :: b1 :: b2 :: b3 :: rest => [b0, b1, b2, b3] :: chunk4 rest
  | _ => []

/-- A 4-byte little-endian two's-complement `int`, as `f.read` fills
one on the x86 targets this program is built for. -/
def decodeI32 (bytes : List Nat) : Int :=
  let v : Int :=
    (bytes.getD 0 0 : Int) + 256 * (bytes.getD 1 0 : Int) + 65536 * (bytes.getD 2 0 : Int) +
      16777216 * (bytes.getD 3 0 : Int)
  if v < 2147483648 then v else v - 4294967296

/-- Embedding of `read_vect` (tools.cpp lines 44-77); the external
file is modelled as `none` when missing or unreadable and as its byte
list otherwise.  A missing file, a zero size or a size that is not a
multiple of `sizeof(int) = 4` yields the empty vector (after a stderr
report); otherwise the `fsize / 4` integers are read. -/
def read_vect (file : Option (List Nat)) : List Int :=
  match file with
  | none => []
  | some bytes =>
    if bytes.length = 0 ∨ bytes.length % 4 ≠ 0 then []
    else (chunk4 bytes).map decodeI32

/-- The rank string `"23456789TJQKA"` of `cardStrToInt` (main.cpp line
152). -/
def ranksStr : List Char := ['2', '3', '4', '5', '6', '7', '8', '9', 'T', 'J', 'Q', 'K', 'A']

/-- The suit string `"cdhs"` of `cardStrToInt` (main.cpp line 153). -/
def suitsStr : List Char := ['c', 'd', 'h', 's']

/-- Embedding of `cardStrToInt` (main.cpp lines 151-157):
`rank + suit * 13` with the positions found in the rank and suit
strings.  (`std::string::find` on an absent character returns `npos`;
`List.indexOf` returns the length instead — the difference is
unreachable for the valid cards this is applied to.) -/
def cardStrToInt (card : List Char) : Int :=
  (ranksStr.indexOf (card.getD 0 ' ') : Int) + (suitsStr.indexOf (card.getD 1 ' ') : Int) * 13

/-- C9: The 7-card evaluator canonicalizes by sorting, so its score is
invariant under any permutation of the input selection. -/
theorem evaluate_selection_perm_invariant (ct t rp : List Int) (sel sel' : List Int)
    (h : sel.Perm sel') :
    evaluate_selection ct t rp sel = evaluate_selection ct t rp sel' := by
  have hs : sel.insertionSort (· ≤ ·) = sel'.insertionSort (· ≤ ·) :=
    List.eq_of_perm_of_sorted
      ((List.perm_insertionSort _ sel).trans (h.trans (List.perm_insertionSort _ sel').symm))
      (List.sorted_insertionSort _ sel) (List.sorted_insertionSort _ sel')
  unfold evaluate_selection
  rw [hs]

/-- Witness for C9 at a concrete permutation. -/
theorem evaluate_selection_perm_invariant_witness :
    ([(3 : Int), 1, 2].Perm [2, 3, 1]) ∧
      evaluate_selection [] [] [] [(3 : Int), 1, 2] = evaluate_selection [] [] [] [2, 3, 1] := by
  refine ⟨by decide, evaluate_selection_perm_invariant [] [] [] _ _ (by decide)⟩

/-- Expansion of `to_ckey` on a five-card hand whose cards are all in
range and whose contribution table is large enough for every
(position, card) index. -/
theorem to_ckey_five (ct : List Int) (x1 x2 x3 x4 x5 : Int)
    (h1 : 0 ≤ x1 ∧ x1 < 52) (h2 : 0 ≤ x2 ∧ x2 < 52) (h3 : 0 ≤ x3 ∧ x3 < 52)
    (h4 : 0 ≤ x4 ∧ x4 < 52) (h5 : 0 ≤ x5 ∧ x5 < 52) (hct : 317 ≤ ct.length) :
    to_ckey ct [x1, x2, x3, x4, x5] =
      ct.getD (53 + x1).toNat 0 + ct.getD (106 + x2).toNat 0 + ct.getD (159 + x3).toNat 0 +
        ct.getD (212 + x4).toNat 0 + ct.getD (265 + x5).toNat 0 := by
  unfold to_ckey
  simp only [to_ckeyAux]
  norm_num
  rw [if_pos (by omega), if_pos (by omega), if_pos (by omega), if_pos (by omega),
    if_pos (by omega)]

/-- Replacing one card of a five-card hand shifts its key by the
difference of the two per-(position, card) contributions: the additive
perfect-hash property behind the evaluator's incremental updates. -/
theorem to_ckey_set (ct : List Int) (hand : List Int) (r : Nat) (v : Int)
    (hlen : hand.length = 5) (hr : r < 5)
    (hbounds : ∀ x ∈ hand, 0 ≤ x ∧ x < 52) (hv : 0 ≤ v ∧ v < 52) (hct : 317 ≤ ct.length) :
    to_ckey ct (hand.set r v) =
      to_ckey ct hand + ct.getD (((r : Int) + 1) * 53 + v).toNat 0 -
        ct.getD (((r : Int) + 1) * 53 + hand.getD r 0).toNat 0 := by
  rcases hand with _ | ⟨y1, hand⟩
  · simp at hlen
  rcases hand with _ | ⟨y2, hand⟩
  · simp at hlen
  rcases hand with _ | ⟨y3, hand⟩
  · simp at hlen
  rcases hand with _ | ⟨y4, hand⟩
  · simp at hlen
  rcases hand with _ | ⟨y5, hand⟩
  · simp at hlen
  rcases hand with _ | ⟨y6, hand⟩
  swap
  · simp at hlen
  have hb1 : 0 ≤ y1 ∧ y1 < 52 := hbounds y1 (by simp)
  have hb2 : 0 ≤ y2 ∧ y2 < 52 := hbounds y2 (by simp)
  have hb3 : 0 ≤ y3 ∧ y3 < 52 := hbounds y3 (by simp)
  have hb4 : 0 ≤ y4 ∧ y4 < 52 := hbounds y4 (by simp)
  have hb5 : 0 ≤ y5 ∧ y5 < 52 := hbounds y5 (by simp)
  interval_cases r
  · simp only [List.set_cons_zero, List.getD_cons_zero]
    rw [to_ckey_five ct v y2 y3 y4 y5 hv hb2 hb3 hb4 hb5 hct,
      to_ckey_five ct y1 y2 y3 y4 y5 hb1 hb2 hb3 hb4 hb5 hct]
    norm_num
    ring
  · simp only [List.set_cons_succ, List.set_cons_zero, List.getD_cons_succ, List.getD_cons_zero]
    rw [to_ckey_five ct y1 v y3 y4 y5 hb1 hv hb3 hb4 hb5 hct,
      to_ckey_five ct y1 y2 y3 y4 y5 hb1 hb2 hb3 hb4 hb5 hct]
    norm_num
    ring
  · simp only [List.set_cons_succ, List.set_cons_zero, List.getD_cons_succ, List.getD_cons_zero]
    rw [to_ckey_five ct y1 y2 v y4 y5 hb1 hb2 hv hb4 hb5 hct,
      to_ckey_five ct y1 y2 y3 y4 y5 hb1 hb2 hb3 hb4 hb5 hct]
    norm_num
    ring
  · simp only [List.set_cons_succ, List.set_cons_zero, List.getD_cons_succ, List.getD_cons_zero]
    rw [to_ckey_five ct y1 y2 y3 v y5 hb1 hb2 hb3 hv hb5 hct,
      to_ckey_five ct y1 y2 y3 y4 y5 hb1 hb2 hb3 hb4 hb5 hct]
    norm_num
    ring
  · simp only [List.set_cons_succ, List.set_cons_zero, List.getD_cons_succ, List.getD_cons_zero]
    rw [to_ckey_five ct y1 y2 y3 y4 v hb1 hb2 hb3 hb4 hv hct,
      to_ckey_five ct y1 y2 y3 y4 y5 hb1 hb2 hb3 hb4 hb5 hct]
    norm_num
    ring

/-- A defaulted access at an in-range position yields a member of the
list. -/
theorem getD_mem_of_lt (l : List Int) (n : Nat) (d : Int) (h : n < l.length) :
    l.getD n d ∈ l := by
  induction l generalizing n with
  | nil => simp at h
  | cons x xs ih =>
    cases n with
    | zero => simp
    | succ m =>
      simp only [List.getD_cons_succ]
      exact List.mem_cons_of_mem _ (ih m (by simpa using h))

/-- One substitution step of the evaluator, from a consistent state
(key equal to the key of the working hand, all cards in range, tables
large enough): the step performs the incremental key update, replaces
the slot, and folds the new score into the running maximum. -/
theorem evalStep_run (ct t sel : List Int) (j r s : Nat) (key maxs : Int) (hand : List Int)
    (hj : j + 1 < replaceTable.length)
    (hr : replaceTable.getD j 0 = (r : Int)) (hs : replaceTable.getD (j + 1) 0 = (s : Int))
    (hr5 : r < 5) (hs7 : s < 7)
    (hsel7 : sel.length = 7) (hselB : ∀ x ∈ sel, 0 ≤ x ∧ x < 52)
    (hhand5 : hand.length = 5) (hhandB : ∀ x ∈ hand, 0 ≤ x ∧ x < 52)
    (hct : 317 ≤ ct.length)
    (hkey : key = to_ckey ct hand)
    (hkey2 : 0 ≤ to_ckey ct (hand.set r (sel.getD s 0)) ∧
      to_ckey ct (hand.set r (sel.getD s 0)) < (t.length : Int)) :
    evalStep ct t sel replaceTable (key, hand, maxs) j =
      (to_ckey ct (hand.set r (sel.getD s 0)), hand.set r (sel.getD s 0),
        max maxs (t.getD (to_ckey ct (hand.set r (sel.getD s 0))).toNat 0)) := by
  have hv : 0 ≤ sel.getD s 0 ∧ sel.getD s 0 < 52 :=
    hselB _ (getD_mem_of_lt sel s 0 (by omega))
  have hgrB : 0 ≤ hand.getD r 0 ∧ hand.getD r 0 < 52 :=
    hhandB _ (getD_mem_of_lt hand r 0 (by omega))
  have hΔ : key + ct.getD (((r : Int) + 1) * 53 + sel.getD s 0).toNat 0 -
      ct.getD (((r : Int) + 1) * 53 + hand.getD r 0).toNat 0 =
      to_ckey ct (hand.set r (sel.getD s 0)) := by
    rw [hkey, to_ckey_set ct hand r (sel.getD s 0) hhand5 hr5 hhandB hv hct]
  simp only [evalStep]
  rw [hr, hs]
  simp only [Int.toNat_natCast]
  rw [if_pos ⟨hj, by omega, by omega⟩]
  rw [if_pos ⟨by omega, by omega, by omega, by omega⟩]
  rw [hΔ, if_pos hkey2]

/-- `scanl` always begins with its initial value. -/
theorem scanl_eq_cons_tail {α β : Type} (f : β → α → β) (b : β) (l : List α) :
    List.scanl f b l = b :: (List.scanl f b l).tail := by
  cases l <;> simp [List.scanl]

/-- Running the substitution loop over any aligned batch of steps from
a consistent state: the final state carries the hand obtained by
folding the pure substitutions, its key, and the maximum of the scores
of every hand visited along the walk. -/
theorem fold_run (ct t sel : List Int) (tr : List (Nat × Nat × Nat)) (hand : List Int)
    (maxs : Int)
    (hsel7 : sel.length = 7) (hselB : ∀ x ∈ sel, 0 ≤ x ∧ x < 52) (hct : 317 ≤ ct.length)
    (hhand5 : hand.length = 5) (hhandB : ∀ x ∈ hand, 0 ≤ x ∧ x < 52)
    (htr : ∀ p ∈ tr, p.1 + 1 < replaceTable.length ∧
      replaceTable.getD p.1 0 = (p.2.1 : Int) ∧ replaceTable.getD (p.1 + 1) 0 = (p.2.2 : Int) ∧
      p.2.1 < 5 ∧ p.2.2 < 7)
    (hkeys : ∀ h ∈ List.scanl (subStep sel) hand tr,
      0 ≤ to_ckey ct h ∧ to_ckey ct h < (t.length : Int)) :
    List.foldl (evalStep ct t sel replaceTable) (to_ckey ct hand, hand, maxs)
        (tr.map (fun p => p.1)) =
      (to_ckey ct (tr.foldl (subStep sel) hand), tr.foldl (subStep sel) hand,
        (List.scanl (subStep sel) hand tr).tail.foldl
          (fun m h => max m (t.getD (to_ckey ct h).toNat 0)) maxs) := by
  induction tr generalizing hand maxs with
  | nil => simp [List.scanl]
  | cons p tr ih =>
    obtain ⟨hj, hr, hs, hr5, hs7⟩ := htr p (List.mem_cons_self _ _)
    have hh2eq : subStep sel hand p = hand.set p.2.1 (sel.getD p.2.2 0) := rfl
    have hhand5' : (subStep sel hand p).length = 5 := by rw [hh2eq, List.length_set]; exact hhand5
    have hhandB' : ∀ x ∈ subStep sel hand p, 0 ≤ x ∧ x < 52 := by
      intro x hx
      rw [hh2eq] at hx
      rcases List.mem_or_eq_of_mem_set hx with h | h
      · exact hhandB x h
      · subst h; exact hselB _ (getD_mem_of_lt sel _ 0 (by omega))
    have hmem2 : subStep sel hand p ∈ List.scanl (subStep sel) hand (p :: tr) := by
      rw [List.scanl_cons, scanl_eq_cons_tail]
      exact List.mem_cons_of_mem _ (List.mem_cons_self _ _)
    have hkey2 : 0 ≤ to_ckey ct (subStep sel hand p) ∧
        to_ckey ct (subStep sel hand p) < (t.length : Int) := hkeys _ hmem2
    have htr' : ∀ q ∈ tr, q.1 + 1 < replaceTable.length ∧
        replaceTable.getD q.1 0 = (q.2.1 : Int) ∧
        replaceTable.getD (q.1 + 1) 0 = (q.2.2 : Int) ∧ q.2.1 < 5 ∧ q.2.2 < 7 :=
      fun q hq => htr q (List.mem_cons_of_mem _ hq)
    have hkeys' : ∀ h ∈ List.scanl (subStep sel) (subStep sel hand p) tr,
        0 ≤ to_ckey ct h ∧ to_ckey ct h < (t.length : Int) := by
      intro h hh
      apply hkeys
      rw [List.scanl_cons]
      exact List.mem_cons_of_mem _ hh
    rw [List.map_cons, List.foldl_cons,
      evalStep_run ct t sel p.1 p.2.1 p.2.2 (to_ckey ct hand) maxs hand hj hr hs hr5 hs7
        hsel7 hselB hhand5 hhandB hct rfl (by rw [← hh2eq] at *; exact hkey2)]
    rw [← hh2eq]
    rw [ih (subStep sel hand p) (max maxs (t.getD (to_ckey ct (subStep sel hand p)).toNat 0))
      hhand5' hhandB' htr' hkeys']
    simp only [List.foldl_cons, List.scanl_cons, List.singleton_append, List.tail_cons]
    conv_rhs => rw [scanl_eq_cons_tail (subStep sel) (subStep sel hand p) tr]
    rw [List.foldl_cons]

/-- The seed of a running maximum never exceeds its result. -/
theorem le_foldl_max {α : Type} (f : α → Int) (a : Int) (l : List α) :
    a ≤ l.foldl (fun m h => max m (f h)) a := by
  induction l generalizing a with
  | nil => exact le_refl a
  | cons x l ih => exact le_trans (le_max_left a (f x)) (ih (max a (f x)))

/-- Every scored element is bounded by the running maximum's result. -/
theorem foldl_max_le_of_mem {α : Type} (f : α → Int) (l : List α) (x : α) :
    x ∈ l → ∀ a : Int, f x ≤ l.foldl (fun m h => max m (f h)) a := by
  induction l with
  | nil => intro hx; simp at hx
  | cons y l ih =>
    intro hx a
    rcases List.mem_cons.mp hx with h | h
    · subst h
      exact le_trans (le_max_right a (f x)) (le_foldl_max f (max a (f x)) l)
    · exact ih h (max a (f y))

/-- A running maximum is attained: it is either the seed or the score
of some element. -/
theorem foldl_max_attained {α : Type} (f : α → Int) (l : List α) :
    ∀ a : Int, l.foldl (fun m h => max m (f h)) a = a ∨
      ∃ x ∈ l, l.foldl (fun m h => max m (f h)) a = f x := by
  induction l with
  | nil => intro a; exact Or.inl rfl
  | cons y l ih =>
    intro a
    rcases ih (max a (f y)) with h | ⟨x, hx, hh⟩
    · rcases max_choice a (f y) with hm | hm
      · left; rw [List.foldl_cons, h, hm]
      · right; exact ⟨y, List.mem_cons_self _ _, by rw [List.foldl_cons, h, hm]⟩
    · right; exact ⟨x, List.mem_cons_of_mem _ hx, by rw [List.foldl_cons]; exact hh⟩

/-- A list of length seven is an explicit seven-element list. -/
theorem exists_seven (l : List Int) (h : l.length = 7) :
    ∃ a b c d e f g, l = [a, b, c, d, e, f, g] := by
  rcases l with _ | ⟨a, l⟩
  · simp at h
  rcases l with _ | ⟨b, l⟩
  · simp at h
  rcases l with _ | ⟨c, l⟩
  · simp at h
  rcases l with _ | ⟨d, l⟩
  · simp at h
  rcases l with _ | ⟨e, l⟩
  · simp at h
  rcases l with _ | ⟨f, l⟩
  · simp at h
  rcases l with _ | ⟨g, l⟩
  · simp at h
  rcases l with _ | ⟨x, l⟩
  · exact ⟨a, b, c, d, e, f, g, rfl⟩
  · simp at h

/-- C1: For a 7-card selection of distinct valid cards (tables large
enough and every subset key in range of the score table), the
evaluator's result is an upper bound of the `score5` of each of the 21
five-card subsets of the sorted selection, and is attained by one of
them: it is their maximum, computed by 20 incremental single-card
substitution steps from the base subset. -/
theorem evaluate_selection_best_of_seven (ct t sel : List Int)
    (hlen : sel.length = 7) (hcards : ∀ x ∈ sel, 0 ≤ x ∧ x < 52) (hnodup : sel.Nodup)
    (hct : 317 ≤ ct.length)
    (hkeys : ∀ h ∈ (sel.insertionSort (· ≤ ·)).sublistsLen 5,
      0 ≤ to_ckey ct h ∧ to_ckey ct h < (t.length : Int)) :
    (∀ h ∈ (sel.insertionSort (· ≤ ·)).sublistsLen 5,
      score5 ct t h ≤ evaluate_selection ct t replaceTable sel) ∧
    ∃ h ∈ (sel.insertionSort (· ≤ ·)).sublistsLen 5,
      evaluate_selection ct t replaceTable sel = score5 ct t h := by
  have hL7 : (sel.insertionSort (· ≤ ·)).length = 7 := by
    rw [List.length_insertionSort]; exact hlen
  have hLB : ∀ x ∈ sel.insertionSort (· ≤ ·), 0 ≤ x ∧ x < 52 := fun x hx =>
    hcards x ((List.perm_insertionSort (· ≤ ·) sel).mem_iff.mp hx)
  obtain ⟨a, b, c, d, e, f, g, hL⟩ := exists_seven _ hL7
  rw [hL] at hLB
  have ha : 0 ≤ a ∧ a < 52 := hLB a (by simp)
  have hb : 0 ≤ b ∧ b < 52 := hLB b (by simp)
  have hc : 0 ≤ c ∧ c < 52 := hLB c (by simp)
  have hd : 0 ≤ d ∧ d < 52 := hLB d (by simp)
  have he : 0 ≤ e ∧ e < 52 := hLB e (by simp)
  have hf : 0 ≤ f ∧ f < 52 := hLB f (by simp)
  have hg : 0 ≤ g ∧ g < 52 := hLB g (by simp)
  have hsub : (sel.insertionSort (· ≤ ·)).sublistsLen 5 =
      [[c, d, e, f, g], [b, d, e, f, g], [b, c, e, f, g], [b, c, d, f, g], [b, c, d, e, g],
       [b, c, d, e, f], [a, d, e, f, g], [a, c, e, f, g], [a, c, d, f, g], [a, c, d, e, g],
       [a, c, d, e, f], [a, b, e, f, g], [a, b, d, f, g], [a, b, d, e, g], [a, b, d, e, f],
       [a, b, c, f, g], [a, b, c, e, g], [a, b, c, e, f], [a, b, c, d, g], [a, b, c, d, f],
       [a, b, c, d, e]] := by
    rw [hL]
    simp [List.sublistsLen_succ_cons, List.sublistsLen_zero]
  have hbase : 0 ≤ to_ckey ct [c, d, e, f, g] ∧
      to_ckey ct [c, d, e, f, g] < (t.length : Int) := by
    apply hkeys; rw [hsub]; simp
  have hbB : ∀ x ∈ [c, d, e, f, g], 0 ≤ x ∧ x < 52 := by
    intro x hx
    fin_cases hx
    exacts [hc, hd, he, hf, hg]
  have hscan : List.scanl (subStep [a, b, c, d, e, f, g]) [c, d, e, f, g] trSteps =
      [[c, d, e, f, g],
       [b, d, e, f, g], [b, c, e, f, g], [b, c, d, f, g], [b, c, d, e, g], [b, c, d, e, f],
       [a, c, d, e, f], [a, c, d, e, g], [a, c, d, f, g], [a, c, e, f, g], [a, d, e, f, g],
       [a, b, e, f, g], [a, b, d, f, g], [a, b, d, e, g], [a, b, d, e, f], [a, b, c, e, f],
       [a, b, c, e, g], [a, b, c, f, g], [a, b, c, d, g], [a, b, c, d, f], [a, b, c, d, e]] := by
    simp [trSteps, subStep, List.scanl]
  have hsubset3 : ∀ h ∈
      [[c, d, e, f, g],
       [b, d, e, f, g], [b, c, e, f, g], [b, c, d, f, g], [b, c, d, e, g], [b, c, d, e, f],
       [a, c, d, e, f], [a, c, d, e, g], [a, c, d, f, g], [a, c, e, f, g], [a, d, e, f, g],
       [a, b, e, f, g], [a, b, d, f, g], [a, b, d, e, g], [a, b, d, e, f], [a, b, c, e, f],
       [a, b, c, e, g], [a, b, c, f, g], [a, b, c, d, g], [a, b, c, d, f], [a, b, c, d, e]],
      h ∈ [[c, d, e, f, g], [b, d, e, f, g], [b, c, e, f, g], [b, c, d, f, g], [b, c, d, e, g],
       [b, c, d, e, f], [a, d, e, f, g], [a, c, e, f, g], [a, c, d, f, g], [a, c, d, e, g],
       [a, c, d, e, f], [a, b, e, f, g], [a, b, d, f, g], [a, b, d, e, g], [a, b, d, e, f],
       [a, b, c, f, g], [a, b, c, e, g], [a, b, c, e, f], [a, b, c, d, g], [a, b, c, d, f],
       [a, b, c, d, e]] := by
    intro h hh
    fin_cases hh <;> simp
  have hsubset1 : ∀ h ∈
      [[c, d, e, f, g], [b, d, e, f, g], [b, c, e, f, g], [b, c, d, f, g], [b, c, d, e, g],
       [b, c, d, e, f], [a, d, e, f, g], [a, c, e, f, g], [a, c, d, f, g], [a, c, d, e, g],
       [a, c, d, e, f], [a, b, e, f, g], [a, b, d, f, g], [a, b, d, e, g], [a, b, d, e, f],
       [a, b, c, f, g], [a, b, c, e, g], [a, b, c, e, f], [a, b, c, d, g], [a, b, c, d, f],
       [a, b, c, d, e]],
      h ∈ [[c, d, e, f, g],
       [b, d, e, f, g], [b, c, e, f, g], [b, c, d, f, g], [b, c, d, e, g], [b, c, d, e, f],
       [a, c, d, e, f], [a, c, d, e, g], [a, c, d, f, g], [a, c, e, f, g], [a, d, e, f, g],
       [a, b, e, f, g], [a, b, d, f, g], [a, b, d, e, g], [a, b, d, e, f], [a, b, c, e, f],
       [a, b, c, e, g], [a, b, c, f, g], [a, b, c, d, g], [a, b, c, d, f], [a, b, c, d, e]] := by
    intro h hh
    fin_cases hh <;> simp
  have hkeysW : ∀ h ∈ List.scanl (subStep [a, b, c, d, e, f, g]) [c, d, e, f, g] trSteps,
      0 ≤ to_ckey ct h ∧ to_ckey ct h < (t.length : Int) := by
    intro h hh
    apply hkeys
    rw [hsub]
    rw [hscan] at hh
    exact hsubset3 h hh
  have hE : evaluate_selection ct t replaceTable sel =
      (List.foldl (evalStep ct t [a, b, c, d, e, f, g] replaceTable)
        (to_ckey ct [c, d, e, f, g], [c, d, e, f, g],
          t.getD (to_ckey ct [c, d, e, f, g]).toNat 0)
        (trSteps.map (fun p => p.1))).2.2 := by
    simp only [evaluate_selection]
    rw [hL]
    norm_num
    rw [if_pos hbase, show stepIndices = trSteps.map (fun p => p.1) from rfl]
  rw [hE,
    fold_run ct t [a, b, c, d, e, f, g] trSteps [c, d, e, f, g]
      (t.getD (to_ckey ct [c, d, e, f, g]).toNat 0) (by simp) hLB hct (by simp) hbB
      (by decide) hkeysW]
  rw [hscan]
  constructor
  · rw [hsub]
    intro h hh
    have hsc : score5 ct t h = t.getD (to_ckey ct h).toNat 0 := by
      unfold score5
      rw [if_pos (hkeys h (by rw [hsub]; exact hh))]
    rw [hsc]
    rcases List.mem_cons.mp (hsubset1 h hh) with heq | hh2
    · rw [heq]
      exact le_foldl_max (fun h => t.getD (to_ckey ct h).toNat 0) _ _
    · exact foldl_max_le_of_mem (fun h => t.getD (to_ckey ct h).toNat 0) _ h hh2 _
  · rcases foldl_max_attained (fun h => t.getD (to_ckey ct h).toNat 0)
      ([[b, d, e, f, g], [b, c, e, f, g], [b, c, d, f, g], [b, c, d, e, g], [b, c, d, e, f],
        [a, c, d, e, f], [a, c, d, e, g], [a, c, d, f, g], [a, c, e, f, g], [a, d, e, f, g],
        [a, b, e, f, g], [a, b, d, f, g], [a, b, d, e, g], [a, b, d, e, f], [a, b, c, e, f],
        [a, b, c, e, g], [a, b, c, f, g], [a, b, c, d, g], [a, b, c, d, f], [a, b, c, d, e]])
      (t.getD (to_ckey ct [c, d, e, f, g]).toNat 0) with hat | ⟨x, hx, hat⟩
    · refine ⟨[c, d, e, f, g], by rw [hsub]; simp, ?_⟩
      have hsc : score5 ct t [c, d, e, f, g] =
          t.getD (to_ckey ct [c, d, e, f, g]).toNat 0 := by
        unfold score5; rw [if_pos hbase]
      rw [hsc]
      exact hat
    · refine ⟨x, by rw [hsub]; exact hsubset3 x (List.mem_cons_of_mem _ hx), ?_⟩
      have hsc : score5 ct t x = t.getD (to_ckey ct x).toNat 0 := by
        unfold score5
        rw [if_pos (hkeysW x (by rw [hscan]; exact List.mem_cons_of_mem _ hx))]
      rw [hsc]
      exact hat

set_option maxRecDepth 4000 in
/-- Witness for C1 at a concrete selection and concrete tables. -/
theorem evaluate_selection_best_of_seven_witness :
    (∀ h ∈ (([0, 1, 2, 3, 4, 5, 6] : List Int).insertionSort (· ≤ ·)).sublistsLen 5,
      score5 (List.replicate 317 0) [7] h ≤
        evaluate_selection (List.replicate 317 0) [7] replaceTable [0, 1, 2, 3, 4, 5, 6]) ∧
    ∃ h ∈ (([0, 1, 2, 3, 4, 5, 6] : List Int).insertionSort (· ≤ ·)).sublistsLen 5,
      evaluate_selection (List.replicate 317 0) [7] replaceTable [0, 1, 2, 3, 4, 5, 6] =
        score5 (List.replicate 317 0) [7] h :=
  evaluate_selection_best_of_seven (List.replicate 317 0) [7] [0, 1, 2, 3, 4, 5, 6]
    (by decide) (by decide) (by decide) (by decide) (by decide)

/-- With an empty contribution table every per-position bounds check
fails, so `to_ckey` returns its sentinel 0 without any table access. -/
theorem to_ckey_nil_ct (hand : List Int) : to_ckey [] hand = 0 := by
  cases hand with
  | nil => rfl
  | cons c rest =>
    unfold to_ckey
    simp only [to_ckeyAux]
    rw [if_neg (by norm_num)]

/-- With an empty contribution table every substitution step is skipped
and leaves the loop state unchanged. -/
theorem evalStep_nil_ct (t sel rp : List Int) (st : Int × List Int × Int) (j : Nat) :
    evalStep [] t sel rp st j = st := by
  obtain ⟨k, h, m⟩ := st
  simp only [evalStep]
  split
  · rw [if_neg (by norm_num)]
  · rfl

/-- With an empty substitution table the loop guard `j + 1 < size`
always fails, so every step is skipped. -/
theorem evalStep_nil_rp (ct t sel : List Int) (st : Int × List Int × Int) (j : Nat) :
    evalStep ct t sel [] st j = st := by
  obtain ⟨k, h, m⟩ := st
  simp only [evalStep]
  rw [if_neg (by norm_num)]

/-- Folding a function that never changes the state is the identity. -/
theorem foldl_id_of_fixed {α β : Type} (f : β → α → β) (l : List α)
    (hf : ∀ st x, f st x = st) : ∀ st, l.foldl f st = st := by
  induction l with
  | nil => intro st; rfl
  | cons x l ih => intro st; rw [List.foldl_cons, hf st x]; exact ih st

/-- C7: every computed index into the contribution table, the score
table and the substitution table is guarded: out-of-range conditions
yield the documented sentinels (0 for `to_ckey`, -1 for a short
selection, 0 for an out-of-range key), and mismatched or empty tables
make the evaluator skip the guarded accesses instead of failing, for
all possible table sizes. -/
theorem evaluator_index_safety :
    (∀ hand : List Int, to_ckey [] hand = 0) ∧
    (∀ ct t rp sel : List Int, sel.length < 7 → evaluate_selection ct t rp sel = -1) ∧
    (∀ ct t rp sel : List Int, 7 ≤ sel.length →
      ¬(0 ≤ to_ckey ct (((sel.insertionSort (· ≤ ·)).drop 2).take 5) ∧
        to_ckey ct (((sel.insertionSort (· ≤ ·)).drop 2).take 5) < (t.length : Int)) →
      evaluate_selection ct t rp sel = 0) ∧
    (∀ t rp sel : List Int, 7 ≤ sel.length → 0 < t.length →
      evaluate_selection [] t rp sel = t.getD 0 0) ∧
    (∀ ct t sel : List Int, 7 ≤ sel.length →
      evaluate_selection ct t [] sel =
        score5 ct t (((sel.insertionSort (· ≤ ·)).drop 2).take 5)) := by
  refine ⟨to_ckey_nil_ct, ?_, ?_, ?_, ?_⟩
  · intro ct t rp sel h
    simp only [evaluate_selection]
    rw [if_pos (by rw [List.length_insertionSort]; exact h)]
  · intro ct t rp sel h hkey
    simp only [evaluate_selection]
    rw [if_neg (by rw [List.length_insertionSort]; omega), if_neg hkey]
  · intro t rp sel h ht
    simp only [evaluate_selection]
    rw [if_neg (by rw [List.length_insertionSort]; omega)]
    rw [to_ckey_nil_ct]
    rw [if_pos (by constructor <;> omega)]
    rw [foldl_id_of_fixed _ _ (evalStep_nil_ct t _ rp) _]
    simp
  · intro ct t sel h
    simp only [evaluate_selection, score5]
    rw [if_neg (by rw [List.length_insertionSort]; omega)]
    split
    · rw [foldl_id_of_fixed _ _ (evalStep_nil_rp ct t _) _]
    · rfl

/-- Witness for C7 at concrete tables and selections. -/
theorem evaluator_index_safety_witness :
    (to_ckey [] [0, 1, 2, 3, 4] = 0) ∧
    (evaluate_selection [] [] [] [0, 1, 2] = -1) ∧
    (evaluate_selection [] [] [] [0, 1, 2, 3, 4, 5, 6] = 0) ∧
    (evaluate_selection [] [5] [] [0, 1, 2, 3, 4, 5, 6] = 5) ∧
    (evaluate_selection [] [5] [] [0, 1, 2, 3, 4, 5, 6] =
      score5 [] [5] (((([0, 1, 2, 3, 4, 5, 6] : List Int).insertionSort (· ≤ ·)).drop 2).take 5)) :=
  ⟨evaluator_index_safety.1 [0, 1, 2, 3, 4],
   evaluator_index_safety.2.1 [] [] [] [0, 1, 2] (by decide),
   evaluator_index_safety.2.2.1 [] [] [] [0, 1, 2, 3, 4, 5, 6] (by decide) (by decide),
   evaluator_index_safety.2.2.2.1 [5] [] [0, 1, 2, 3, 4, 5, 6] (by decide) (by decide),
   evaluator_index_safety.2.2.2.2 [] [5] [0, 1, 2, 3, 4, 5, 6] (by decide)⟩

/-- Setting a slot then reading it back yields the written value. -/
theorem getD_set_self {α : Type} (d : α) (l : List α) (n : Nat) (v : α) (h : n < l.length) :
    (l.set n v).getD n d = v := by
  induction l generalizing n with
  | nil => simp at h
  | cons x xs ih =>
    cases n with
    | zero => rfl
    | succ m =>
      simp only [List.set_cons_succ, List.getD_cons_succ]
      exact ih m (by simpa using h)

/-- Setting one slot leaves every other slot unchanged. -/
theorem getD_set_ne {α : Type} (d : α) (l : List α) (n m : Nat) (v : α) (hne : n ≠ m) :
    (l.set n v).getD m d = l.getD m d := by
  induction l generalizing n m with
  | nil => rfl
  | cons x xs ih =>
    cases n with
    | zero =>
      cases m with
      | zero => exact absurd rfl hne
      | succ k => simp only [List.set_cons_zero, List.getD_cons_succ]
    | succ p =>
      cases m with
      | zero => simp only [List.set_cons_succ, List.getD_cons_zero]
      | succ k =>
        simp only [List.set_cons_succ, List.getD_cons_succ]
        exact ih p k (by omega)

/-- Marking cards preserves the length of the flag array. -/
theorem markCards_length (cards f : List Int) : (markCards cards f).length = f.length := by
  induction cards generalizing f with
  | nil => rfl
  | cons c cs ih =>
    rw [show markCards (c :: cs) f =
      markCards cs (if 0 ≤ c ∧ c < 52 then f.set c.toNat 1 else f) from rfl, ih]
    split <;> simp

/-- Marking hands preserves the length of the flag array. -/
theorem markHands_length (hands : List (List Int)) (f : List Int) :
    (markHands hands f).length = f.length := by
  induction hands generalizing f with
  | nil => rfl
  | cons h hs ih =>
    rw [show markHands (h :: hs) f = markHands hs (markCards h f) from rfl, ih,
      markCards_length]

/-- A slot of the flag array after the card-marking loop: 1 when some
card of the list names it, otherwise whatever it held before. -/
theorem markCards_getD (cards : List Int) (f : List Int) (i : Nat)
    (hcards : ∀ c ∈ cards, 0 ≤ c ∧ c < 52) (hf : f.length = 52) (hi : i < 52) :
    (markCards cards f).getD i 0 = if (i : Int) ∈ cards then 1 else f.getD i 0 := by
  induction cards generalizing f with
  | nil => simp [markCards]
  | cons c cs ih =>
    obtain ⟨hc0, hc52⟩ := hcards c (List.mem_cons_self _ _)
    rw [show markCards (c :: cs) f =
      markCards cs (if 0 ≤ c ∧ c < 52 then f.set c.toNat 1 else f) from rfl,
      if_pos ⟨hc0, hc52⟩,
      ih (f.set c.toNat 1) (fun x hx => hcards x (List.mem_cons_of_mem _ hx))
        (by rw [List.length_set]; exact hf)]
    by_cases hmem : (i : Int) ∈ cs
    · rw [if_pos hmem, if_pos (List.mem_cons_of_mem _ hmem)]
    · rw [if_neg hmem]
      by_cases heq : c.toNat = i
      · have hci : c = (i : Int) := by omega
        rw [heq, getD_set_self 0 _ _ _ (by omega),
          if_pos (List.mem_cons.mpr (Or.inl hci.symm))]
      · rw [getD_set_ne 0 _ _ _ _ heq,
          if_neg (by
            rw [List.mem_cons]
            rintro (h | h)
            · omega
            · exact hmem h)]

/-- A slot of the flag array after the known-hands loop: 1 when some
hand holds the card, otherwise whatever it held before. -/
theorem markHands_getD (hands : List (List Int)) (f : List Int) (i : Nat)
    (hhands : ∀ h ∈ hands, ∀ c ∈ h, 0 ≤ c ∧ c < 52) (hf : f.length = 52) (hi : i < 52) :
    (markHands hands f).getD i 0 =
      if (∃ h ∈ hands, (i : Int) ∈ h) then 1 else f.getD i 0 := by
  induction hands generalizing f with
  | nil => simp [markHands]
  | cons h hs ih =>
    rw [show markHands (h :: hs) f = markHands hs (markCards h f) from rfl,
      ih (markCards h f) (fun x hx => hhands x (List.mem_cons_of_mem _ hx))
        (by rw [markCards_length]; exact hf)]
    by_cases hmem : ∃ x ∈ hs, (i : Int) ∈ x
    · obtain ⟨x, hx, hix⟩ := hmem
      rw [if_pos ⟨x, hx, hix⟩, if_pos ⟨x, List.mem_cons_of_mem _ hx, hix⟩]
    · rw [if_neg hmem, markCards_getD h f i (hhands h (List.mem_cons_self _ _)) hf hi]
      by_cases hm2 : (i : Int) ∈ h
      · rw [if_pos hm2, if_pos ⟨h, List.mem_cons_self _ _, hm2⟩]
      · rw [if_neg hm2,
          if_neg (by
            rintro ⟨x, hx, hix⟩
            rcases List.mem_cons.mp hx with rfl | hx2
            · exact hm2 hix
            · exact hmem ⟨x, hx2, hix⟩)]

/-- Reading any slot of the all-zero flag array yields 0. -/
theorem getD_replicate_zero (n i : Nat) : (List.replicate n (0 : Int)).getD i 0 = 0 := by
  induction n generalizing i with
  | zero => rfl
  | succ m ih =>
    cases i with
    | zero => rfl
    | succ k =>
      simp only [List.replicate_succ, List.getD_cons_succ]
      exact ih k

/-- The flag array built by `get_remaining`: a slot holds 1 exactly
when the board or some known hand uses the card. -/
theorem remaining_mark_getD (comm : List Int) (hands : List (List Int)) (i : Nat)
    (hcomm : ∀ c ∈ comm, 0 ≤ c ∧ c < 52)
    (hhands : ∀ h ∈ hands, ∀ c ∈ h, 0 ≤ c ∧ c < 52) (hi : i < 52) :
    (markHands hands (markCards comm (List.replicate 52 0))).getD i 0 =
      if ((i : Int) ∈ comm ∨ ∃ h ∈ hands, (i : Int) ∈ h) then 1 else 0 := by
  rw [markHands_getD hands _ i hhands
      (by rw [markCards_length, List.length_replicate]) hi,
    markCards_getD comm _ i hcomm (by rw [List.length_replicate]) hi,
    getD_replicate_zero]
  by_cases hE : ∃ h ∈ hands, (i : Int) ∈ h
  · rw [if_pos hE, if_pos (Or.inr hE)]
  · rw [if_neg hE]
    by_cases hC : (i : Int) ∈ comm
    · rw [if_pos hC, if_pos (Or.inl hC)]
    · rw [if_neg hC, if_neg (by rintro (h | h); exacts [hC h, hE h])]

/-- Membership in `get_remaining`: exactly the in-range cards used by
no board slot and no known hand. -/
theorem mem_get_remaining (comm : List Int) (hands : List (List Int))
    (hcomm : ∀ c ∈ comm, 0 ≤ c ∧ c < 52)
    (hhands : ∀ h ∈ hands, ∀ c ∈ h, 0 ≤ c ∧ c < 52) (x : Int) :
    x ∈ get_remaining comm hands ↔
      0 ≤ x ∧ x < 52 ∧ x ∉ comm ∧ ∀ h ∈ hands, x ∉ h := by
  unfold get_remaining
  rw [List.mem_map]
  constructor
  · rintro ⟨i, hif, rfl⟩
    obtain ⟨hir, hmark⟩ := List.mem_filter.mp hif
    have hi52 : i < 52 := List.mem_range.mp hir
    have hmark2 :
        (markHands hands (markCards comm (List.replicate 52 0))).getD i 0 = 0 :=
      of_decide_eq_true hmark
    rw [remaining_mark_getD comm hands i hcomm hhands hi52] at hmark2
    have hcond : ¬((i : Int) ∈ comm ∨ ∃ h ∈ hands, (i : Int) ∈ h) := by
      intro hc
      rw [if_pos hc] at hmark2
      exact one_ne_zero hmark2
    rw [not_or] at hcond
    refine ⟨Int.natCast_nonneg i, by exact_mod_cast hi52, hcond.1, ?_⟩
    intro h hh hih
    exact hcond.2 ⟨h, hh, hih⟩
  · rintro ⟨hx0, hx52, hxc, hxh⟩
    have hxx : (x.toNat : Int) = x := by omega
    refine ⟨x.toNat, List.mem_filter.mpr ⟨List.mem_range.mpr (by omega), ?_⟩, hxx⟩
    rw [decide_eq_true_eq,
      remaining_mark_getD comm hands x.toNat hcomm hhands (by omega), hxx,
      if_neg (by rintro (h | ⟨l, hl, hxl⟩); exacts [hxc h, hxh l hl hxl])]

/-- `get_remaining` never repeats a card. -/
theorem get_remaining_nodup (comm : List Int) (hands : List (List Int)) :
    (get_remaining comm hands).Nodup := by
  unfold get_remaining
  apply List.Nodup.map
  · intro a b hab
    simpa using hab
  · exact (List.nodup_range 52).filter _

/-- Each known hand of two cards contributes two cards to the join. -/
theorem join_length_two (hands : List (List Int)) (hh2 : ∀ h ∈ hands, h.length = 2) :
    hands.join.length = 2 * hands.length := by
  induction hands with
  | nil => rfl
  | cons h hs ih =>
    simp only [List.join_cons, List.length_append, List.length_cons]
    rw [hh2 h (List.mem_cons_self _ _), ih (fun x hx => hh2 x (List.mem_cons_of_mem _ hx))]
    ring

/-- A list splits into the elements satisfying a predicate and those
failing it. -/
theorem length_filter_split (l : List Nat) (p : Nat → Bool) :
    l.length = (l.filter p).length + (l.filter (fun i => !(p i))).length := by
  induction l with
  | nil => rfl
  | cons x xs ih =>
    by_cases hx : p x = true
    · simp [List.filter_cons, hx]
      omega
    · have hx2 : p x = false := by simpa using hx
      simp [List.filter_cons, hx2]
      omega

/-- The size of the remaining deck: 52 minus the board size minus two
per known hand, provided the used cards are in range and distinct. -/
theorem get_remaining_length (comm : List Int) (hands : List (List Int))
    (hcomm : ∀ c ∈ comm, 0 ≤ c ∧ c < 52)
    (hhands : ∀ h ∈ hands, ∀ c ∈ h, 0 ≤ c ∧ c < 52)
    (hh2 : ∀ h ∈ hands, h.length = 2)
    (hnd : (comm ++ hands.join).Nodup) :
    (get_remaining comm hands).length = 52 - comm.length - 2 * hands.length := by
  have husedB : ∀ c ∈ comm ++ hands.join, 0 ≤ c ∧ c < 52 := by
    intro c hc
    rcases List.mem_append.mp hc with h | h
    · exact hcomm c h
    · obtain ⟨l, hl, hcl⟩ := List.mem_join.mp h
      exact hhands l hl c hcl
  have hmapN : ((comm ++ hands.join).map Int.toNat).Nodup := by
    refine List.Nodup.map_on ?_ hnd
    intro x hx y hy hxy
    have := husedB x hx
    have := husedB y hy
    omega
  have hfilterN :
      ((List.range 52).filter (fun i =>
        !(decide ((markHands hands (markCards comm (List.replicate 52 0))).getD i 0 = 0)))).Nodup :=
    (List.nodup_range 52).filter _
  have hmemiff : ∀ i : Nat,
      i ∈ (List.range 52).filter (fun i =>
        !(decide ((markHands hands (markCards comm (List.replicate 52 0))).getD i 0 = 0))) ↔
      i ∈ (comm ++ hands.join).map Int.toNat := by
    intro i
    simp only [List.mem_filter, List.mem_range, List.mem_map, Bool.not_eq_true',
      decide_eq_false_iff_not]
    constructor
    · rintro ⟨hi52, hmark⟩
      rw [remaining_mark_getD comm hands i hcomm hhands hi52] at hmark
      by_cases hc : (i : Int) ∈ comm ∨ ∃ h ∈ hands, (i : Int) ∈ h
      · refine ⟨(i : Int), ?_, by omega⟩
        rcases hc with h | ⟨l, hl, hil⟩
        · exact List.mem_append.mpr (Or.inl h)
        · exact List.mem_append.mpr (Or.inr (List.mem_join.mpr ⟨l, hl, hil⟩))
      · rw [if_neg hc] at hmark
        simp at hmark
    · rintro ⟨x, hx, rfl⟩
      have hxB := husedB x hx
      have hxx : (x.toNat : Int) = x := by omega
      refine ⟨by omega, ?_⟩
      rw [remaining_mark_getD comm hands x.toNat hcomm hhands (by omega), hxx]
      rcases List.mem_append.mp hx with h | h
      · rw [if_pos (Or.inl h)]; simp
      · obtain ⟨l, hl, hxl⟩ := List.mem_join.mp h
        rw [if_pos (Or.inr ⟨l, hl, hxl⟩)]; simp
  have hperm := (List.perm_ext_iff_of_nodup hfilterN hmapN).mpr hmemiff
  have hlenB := hperm.length_eq
  rw [List.length_map] at hlenB
  have hsplit := length_filter_split (List.range 52)
    (fun i =>
      decide ((markHands hands (markCards comm (List.replicate 52 0))).getD i 0 = 0))
  rw [List.length_range] at hsplit
  have hused : (comm ++ hands.join).length = comm.length + 2 * hands.length := by
    rw [List.length_append, join_length_two hands hh2]
  unfold get_remaining
  rw [List.length_map]
  omega

/-- C5: For a board and known hands of pairwise-distinct in-range
cards (two per hand), `get_remaining` is duplicate-free, has exactly
`52 - |board| - 2 * |known_hands|` cards, and avoids every card of the
board and of every known hand. -/
theorem get_remaining_spec (comm : List Int) (hands : List (List Int))
    (hcomm : ∀ c ∈ comm, 0 ≤ c ∧ c < 52)
    (hhands : ∀ h ∈ hands, ∀ c ∈ h, 0 ≤ c ∧ c < 52)
    (hh2 : ∀ h ∈ hands, h.length = 2)
    (hnd : (comm ++ hands.join).Nodup) :
    (get_remaining comm hands).Nodup ∧
    (get_remaining comm hands).length = 52 - comm.length - 2 * hands.length ∧
    (∀ c ∈ comm, c ∉ get_remaining comm hands) ∧
    (∀ h ∈ hands, ∀ c ∈ h, c ∉ get_remaining comm hands) := by
  refine ⟨get_remaining_nodup comm hands,
    get_remaining_length comm hands hcomm hhands hh2 hnd, ?_, ?_⟩
  · intro c hc hmem
    exact ((mem_get_remaining comm hands hcomm hhands c).mp hmem).2.2.1 hc
  · intro h hh c hc hmem
    exact ((mem_get_remaining comm hands hcomm hhands c).mp hmem).2.2.2 h hh hc

/-- Witness for C5 at a concrete board and a concrete known hand. -/
theorem get_remaining_spec_witness :
    (get_remaining [0] [[1, 2]]).Nodup ∧
    (get_remaining [0] [[1, 2]]).length =
      52 - ([(0 : Int)]).length - 2 * ([[(1 : Int), 2]]).length ∧
    (∀ c ∈ [(0 : Int)], c ∉ get_remaining [0] [[1, 2]]) ∧
    (∀ h ∈ [[(1 : Int), 2]], ∀ c ∈ h, c ∉ get_remaining [0] [[1, 2]]) :=
  get_remaining_spec [0] [[1, 2]] (by decide) (by decide) (by decide) (by decide)

/-- The seed never exceeds a binary-max fold. -/
theorem self_le_foldl_max (m : Int) (l : List Int) : m ≤ l.foldl max m := by
  induction l generalizing m with
  | nil => exact le_refl m
  | cons x xs ih => exact le_trans (le_max_left m x) (ih (max m x))

/-- Every element is bounded by a binary-max fold over the list. -/
theorem mem_le_foldl_max_bin (l : List Int) (x : Int) (hx : x ∈ l) :
    ∀ m : Int, x ≤ l.foldl max m := by
  induction l with
  | nil => simp at hx
  | cons y ys ih =>
    intro m
    rcases List.mem_cons.mp hx with rfl | h
    · exact le_trans (le_max_right m x) (self_le_foldl_max _ ys)
    · exact ih h (max m y)

/-- A binary-max fold is its seed or one of the elements. -/
theorem foldl_max_attained_or (m : Int) (l : List Int) :
    l.foldl max m = m ∨ l.foldl max m ∈ l := by
  induction l generalizing m with
  | nil => exact Or.inl rfl
  | cons x xs ih =>
    simp only [List.foldl_cons]
    rcases ih (max m x) with h | h
    · rw [h]
      rcases max_choice m x with hm | hm
      · exact Or.inl hm
      · exact Or.inr (by rw [hm]; exact List.mem_cons_self _ _)
    · exact Or.inr (List.mem_cons_of_mem _ h)

/-- Over non-negative scores, the code's running maximum seeded with 0
is attained by some seat. -/
theorem foldl_max_zero_mem (l : List Int) (hne : l ≠ []) (hpos : ∀ s ∈ l, 0 ≤ s) :
    l.foldl max 0 ∈ l := by
  rcases foldl_max_attained_or 0 l with h | h
  · rcases l with _ | ⟨y, ys⟩
    · exact absurd rfl hne
    · have h1 : y ≤ (y :: ys).foldl max 0 :=
        mem_le_foldl_max_bin (y :: ys) y (List.mem_cons_self _ _) 0
      have h2 : 0 ≤ y := hpos y (List.mem_cons_self _ _)
      have h3 : y = 0 := by omega
      rw [h, ← h3]
      exact List.mem_cons_self _ _
  · exact h

/-- The winner fold of `simulate`: the final maximum is the max fold of
the scores, and the winners are the seats attaining it — all of them
when the maximum exceeds the seed, appended to the carried list when
it equals the seed. -/
theorem winners_fold (l : List Int) (k : Nat) (m : Int) (w : List Nat) :
    List.foldl (fun st p => update_winners p.2 st.1 p.1 st.2) (m, w) (List.enumFrom k l) =
      (List.foldl max m l,
        if m < List.foldl max m l then
          ((List.enumFrom k l).filter (fun p => p.2 = List.foldl max m l)).map Prod.fst
        else
          w ++ ((List.enumFrom k l).filter (fun p => p.2 = List.foldl max m l)).map
            Prod.fst) := by
  induction l generalizing k m w with
  | nil => simp [List.enumFrom]
  | cons x xs ih =>
    rw [show List.enumFrom k (x :: xs) = (k, x) :: List.enumFrom (k + 1) xs from rfl,
      List.foldl_cons,
      show update_winners (k, x).2 (m, w).1 (k, x).1 (m, w).2 = update_winners x m k w
        from rfl,
      show List.foldl max m (x :: xs) = List.foldl max (max m x) xs from rfl]
    by_cases hgt : x > m
    · rw [show update_winners x m k w = (x, [k]) from by
        unfold update_winners; rw [if_pos hgt],
        ih (k + 1) x [k], max_eq_right (le_of_lt hgt)]
      have hxM : x ≤ List.foldl max x xs := self_le_foldl_max x xs
      by_cases hlt : x < List.foldl max x xs
      · rw [if_pos hlt, if_pos (lt_of_lt_of_le hgt hxM), List.filter_cons,
          if_neg (by simp; omega)]
      · have hxeq : x = List.foldl max x xs := le_antisymm hxM (not_lt.mp hlt)
        rw [if_neg hlt, if_pos (lt_of_lt_of_le hgt hxM), List.filter_cons,
          if_pos (by simp; omega), List.map_cons]
        simp
    · by_cases heq2 : x = m
      · rw [show update_winners x m k w = (m, w ++ [k]) from by
          unfold update_winners; rw [if_neg hgt, if_pos heq2],
          ih (k + 1) m (w ++ [k]), show max m x = m from by omega]
        by_cases hlt : m < List.foldl max m xs
        · rw [if_pos hlt, if_pos hlt, List.filter_cons, if_neg (by simp; omega)]
        · have hmeq : List.foldl max m xs = m :=
            le_antisymm (not_lt.mp hlt) (self_le_foldl_max m xs)
          rw [if_neg hlt, if_neg hlt, List.filter_cons, if_pos (by simp; omega),
            List.map_cons]
          simp
      · have hlt2 : x < m := by omega
        rw [show update_winners x m k w = (m, w) from by
          unfold update_winners; rw [if_neg hgt, if_neg heq2],
          ih (k + 1) m w, max_eq_left (le_of_lt hlt2)]
        have hmM : m ≤ List.foldl max m xs := self_le_foldl_max m xs
        rw [List.filter_cons,
          if_neg (show ¬(decide ((k, x).2 = List.foldl max m xs) = true) from by
            simp; omega)]

/-- The number of seats attaining a value, read off the enumerated
filter, equals the plain filter count. -/
theorem filter_enumFrom_length (l : List Int) (M : Int) (k : Nat) :
    ((List.enumFrom k l).filter (fun p => p.2 = M)).length =
      (l.filter (fun s => s = M)).length := by
  induction l generalizing k with
  | nil => rfl
  | cons x xs ih =>
    rw [show List.enumFrom k (x :: xs) = (k, x) :: List.enumFrom (k + 1) xs from rfl,
      List.filter_cons, List.filter_cons]
    by_cases hx : x = M
    · rw [if_pos (by simp [hx]), if_pos (by simp [hx]), List.length_cons, List.length_cons,
        ih (k + 1)]
    · rw [if_neg (by simp [hx]), if_neg (by simp [hx]), ih (k + 1)]

/-- Membership in the winner list: exactly the seat indices whose score
is the maximum. -/
theorem mem_filter_enumFrom (l : List Int) (M : Int) (k i : Nat) :
    i ∈ ((List.enumFrom k l).filter (fun p => p.2 = M)).map Prod.fst ↔
      k ≤ i ∧ i - k < l.length ∧ l.getD (i - k) 0 = M := by
  induction l generalizing k with
  | nil => simp
  | cons x xs ih =>
    rw [show List.enumFrom k (x :: xs) = (k, x) :: List.enumFrom (k + 1) xs from rfl,
      List.filter_cons]
    by_cases hx : x = M
    · rw [if_pos (by simp [hx]), List.map_cons]
      simp only [List.mem_cons]
      rw [ih (k + 1)]
      constructor
      · rintro (rfl | ⟨h1, h2, h3⟩)
        · exact ⟨le_refl i, by simp, by simp [hx]⟩
        · refine ⟨by omega, by simp only [List.length_cons]; omega, ?_⟩
          have hsub : i - k = (i - (k + 1)) + 1 := by omega
          rw [hsub, List.getD_cons_succ]
          exact h3
      · rintro ⟨h1, h2, h3⟩
        by_cases hik : i = k
        · exact Or.inl hik
        · right
          have hsub : i - k = (i - (k + 1)) + 1 := by omega
          rw [hsub, List.getD_cons_succ] at h3
          simp only [List.length_cons] at h2
          exact ⟨by omega, by omega, h3⟩
    · rw [if_neg (by simp [hx]), ih (k + 1)]
      constructor
      · rintro ⟨h1, h2, h3⟩
        refine ⟨by omega, by simp only [List.length_cons]; omega, ?_⟩
        have hsub : i - k = (i - (k + 1)) + 1 := by omega
        rw [hsub, List.getD_cons_succ]
        exact h3
      · rintro ⟨h1, h2, h3⟩
        by_cases hik : i = k
        · subst hik
          rw [show i - i = 0 from by omega, List.getD_cons_zero] at h3
          exact absurd h3 hx
        · have hsub : i - k = (i - (k + 1)) + 1 := by omega
          rw [hsub, List.getD_cons_succ] at h3
          simp only [List.length_cons] at h2
          exact ⟨by omega, by omega, h3⟩

/-- The winner list never repeats a seat. -/
theorem nodup_filter_enumFrom (l : List Int) (M : Int) (k : Nat) :
    (((List.enumFrom k l).filter (fun p => p.2 = M)).map Prod.fst).Nodup := by
  induction l generalizing k with
  | nil => simp
  | cons x xs ih =>
    rw [show List.enumFrom k (x :: xs) = (k, x) :: List.enumFrom (k + 1) xs from rfl,
      List.filter_cons]
    by_cases hx : x = M
    · rw [if_pos (by simp [hx]), List.map_cons]
      refine List.nodup_cons.mpr ⟨?_, ih (k + 1)⟩
      intro hk
      rw [mem_filter_enumFrom] at hk
      omega
    · rw [if_neg (by simp [hx])]
      exact ih (k + 1)

/-- `run_trial` yields exactly the seats attaining the running maximum
(seeded with 0), in seat order. -/
theorem run_trial_eq (scores : List Int) :
    run_trial scores =
      ((List.enumFrom 0 scores).filter
        (fun p => p.2 = scores.foldl max 0)).map Prod.fst := by
  unfold run_trial
  rw [show scores.enum = List.enumFrom 0 scores from rfl, winners_fold scores 0 0 []]
  split <;> simp

/-- The tie-bump fold of `calculate`: over a duplicate-free in-bounds
winner list, each winner's tie counter rises by one and every other
seat is untouched. -/
theorem bump_fold_getD (W : List Nat) (results : List (Int × Int))
    (hW : W.Nodup) (hWb : ∀ w ∈ W, w < results.length) (i : Nat) :
    (W.foldl
      (fun res w =>
        if w < res.length then
          res.set w ((res.getD w (0, 0)).1, (res.getD w (0, 0)).2 + 1)
        else res) results).getD i (0, 0) =
      if i ∈ W then ((results.getD i (0, 0)).1, (results.getD i (0, 0)).2 + 1)
      else results.getD i (0, 0) := by
  induction W generalizing results with
  | nil => simp
  | cons w ws ih =>
    rw [List.foldl_cons]
    have hwlen : w < results.length := hWb w (List.mem_cons_self _ _)
    rw [if_pos hwlen]
    have hlen' :
        (results.set w ((results.getD w (0, 0)).1, (results.getD w (0, 0)).2 + 1)).length =
          results.length := List.length_set _ _ _
    rw [ih (results.set w ((results.getD w (0, 0)).1, (results.getD w (0, 0)).2 + 1))
      (List.nodup_cons.mp hW).2
      (fun x hx => by rw [hlen']; exact hWb x (List.mem_cons_of_mem _ hx))]
    by_cases hiws : i ∈ ws
    · rw [if_pos hiws, if_pos (List.mem_cons_of_mem _ hiws),
        getD_set_ne (0, 0) _ _ _ _
          (fun h => (List.nodup_cons.mp hW).1 (by rw [h]; exact hiws))]
    · rw [if_neg hiws]
      by_cases hiw : i = w
      · subst hiw
        rw [if_pos (List.mem_cons_self _ _), getD_set_self (0, 0) _ _ _ hwlen]
      · rw [if_neg (by rw [List.mem_cons]; rintro (h | h); exacts [hiw h, hiws h]),
          getD_set_ne (0, 0) _ _ _ _ (fun h => hiw h.symm)]

/-- C3: Per trial, over non-negative per-seat scores, the code's
maximum (seeded with 0) is a seat's score, and the tally update
credits: a win to the unique seat attaining the maximum when exactly
one does (its tie counter and all other seats unchanged), and a tie to
every seat attaining the maximum when several do (win counters and all
other seats unchanged). -/
theorem calculate_tally (scores : List Int) (results : List (Int × Int))
    (hlen : results.length = scores.length)
    (hpos : ∀ s ∈ scores, 0 ≤ s) (hne : scores ≠ []) :
    scores.foldl max 0 ∈ scores ∧
    ∀ i : Nat, i < results.length →
      (credit results (run_trial scores)).getD i (0, 0) =
        if scores.getD i 0 = scores.foldl max 0 then
          (if (scores.filter (fun s => s = scores.foldl max 0)).length = 1 then
            ((results.getD i (0, 0)).1 + 1, (results.getD i (0, 0)).2)
          else ((results.getD i (0, 0)).1, (results.getD i (0, 0)).2 + 1))
        else results.getD i (0, 0) := by
  refine ⟨foldl_max_zero_mem scores hne hpos, ?_⟩
  intro i hi
  have hmemW : ∀ j : Nat,
      j ∈ run_trial scores ↔ j < scores.length ∧ scores.getD j 0 = scores.foldl max 0 := by
    intro j
    rw [run_trial_eq, mem_filter_enumFrom]
    constructor
    · rintro ⟨_, h2, h3⟩
      rw [Nat.sub_zero] at h2 h3
      exact ⟨h2, h3⟩
    · rintro ⟨h2, h3⟩
      exact ⟨Nat.zero_le j, by rwa [Nat.sub_zero], by rwa [Nat.sub_zero]⟩
  have hlenW : (run_trial scores).length =
      (scores.filter (fun s => s = scores.foldl max 0)).length := by
    rw [run_trial_eq, List.length_map, filter_enumFrom_length]
  unfold credit
  by_cases hone : (scores.filter (fun s => s = scores.foldl max 0)).length = 1
  · obtain ⟨w0, hW⟩ := List.length_eq_one.mp (by rw [hlenW]; exact hone)
    have hw0 : w0 < scores.length ∧ scores.getD w0 0 = scores.foldl max 0 :=
      (hmemW w0).mp (by rw [hW]; exact List.mem_cons_self _ _)
    rw [hW]
    rw [if_pos ⟨rfl, by simp only [List.getD_cons_zero]; omega⟩]
    simp only [List.getD_cons_zero]
    by_cases hiM : scores.getD i 0 = scores.foldl max 0
    · have hiw : i = w0 := by
        have hmem : i ∈ run_trial scores := (hmemW i).mpr ⟨by omega, hiM⟩
        rw [hW] at hmem
        simpa using hmem
      subst hiw
      rw [getD_set_self (0, 0) _ _ _ (by omega), if_pos hiM, if_pos hone]
    · have hiw : w0 ≠ i := fun h => hiM (h ▸ hw0.2)
      rw [getD_set_ne (0, 0) _ _ _ _ hiw, if_neg hiM]
  · rw [if_neg (by rintro ⟨h1, _⟩; rw [hlenW] at h1; exact hone h1)]
    rw [bump_fold_getD (run_trial scores) results
      (by rw [run_trial_eq]; exact nodup_filter_enumFrom _ _ _)
      (fun w hw => by rw [hlen]; exact ((hmemW w).mp hw).1) i]
    by_cases hiM : scores.getD i 0 = scores.foldl max 0
    · rw [if_pos ((hmemW i).mpr ⟨by omega, hiM⟩), if_pos hiM, if_neg hone]
    · rw [if_neg (fun h => hiM ((hmemW i).mp h).2), if_neg hiM]

/-- Witness for C3: two seats, a unique maximum at seat 1. -/
theorem calculate_tally_witness :
    (([3, 7] : List Int).foldl max 0 ∈ ([3, 7] : List Int)) ∧
    ∀ i : Nat, i < ([((0 : Int), (0 : Int)), (0, 0)] : List (Int × Int)).length →
      (credit [(0, 0), (0, 0)] (run_trial [3, 7])).getD i (0, 0) =
        if ([3, 7] : List Int).getD i 0 = ([3, 7] : List Int).foldl max 0 then
          (if (([3, 7] : List Int).filter
              (fun s => s = ([3, 7] : List Int).foldl max 0)).length = 1 then
            ((([((0 : Int), (0 : Int)), (0, 0)] : List (Int × Int)).getD i (0, 0)).1 + 1,
              (([((0 : Int), (0 : Int)), (0, 0)] : List (Int × Int)).getD i (0, 0)).2)
          else ((([((0 : Int), (0 : Int)), (0, 0)] : List (Int × Int)).getD i (0, 0)).1,
            (([((0 : Int), (0 : Int)), (0, 0)] : List (Int × Int)).getD i (0, 0)).2 + 1))
        else ([((0 : Int), (0 : Int)), (0, 0)] : List (Int × Int)).getD i (0, 0) :=
  calculate_tally [3, 7] [(0, 0), (0, 0)] (by decide) (by decide) (by decide)

/-- Characters with the same code point are equal. -/
theorem char_eq_of_toNat (r c : Char) (n : Nat) (h1 : r.val.toNat = n)
    (h2 : c.val.toNat = n) : r = c :=
  Char.ext (UInt32.ext (h1.trans h2.symm))

/-- A character passing the rank check is one of the thirteen rank
characters. -/
theorem validRank_mem (r : Char) (h : validRank r = true) : r ∈ ranksStr := by
  unfold validRank at h
  simp only [Bool.or_eq_true, Bool.and_eq_true, beq_iff_eq, decide_eq_true_eq] at h
  rcases h with ((((⟨h1, h2⟩ | rfl) | rfl) | rfl) | rfl) | rfl
  · have hn1 : 50 ≤ r.val.toNat := by exact_mod_cast (h1 : ('2' : Char).val ≤ r.val)
    have hn2 : r.val.toNat ≤ 57 := by exact_mod_cast (h2 : r.val ≤ ('9' : Char).val)
    have hd : r.val.toNat = 50 ∨ r.val.toNat = 51 ∨ r.val.toNat = 52 ∨ r.val.toNat = 53 ∨
        r.val.toNat = 54 ∨ r.val.toNat = 55 ∨ r.val.toNat = 56 ∨ r.val.toNat = 57 := by omega
    rcases hd with h | h | h | h | h | h | h | h
    · rw [char_eq_of_toNat r '2' 50 h (by decide)]; decide
    · rw [char_eq_of_toNat r '3' 51 h (by decide)]; decide
    · rw [char_eq_of_toNat r '4' 52 h (by decide)]; decide
    · rw [char_eq_of_toNat r '5' 53 h (by decide)]; decide
    · rw [char_eq_of_toNat r '6' 54 h (by decide)]; decide
    · rw [char_eq_of_toNat r '7' 55 h (by decide)]; decide
    · rw [char_eq_of_toNat r '8' 56 h (by decide)]; decide
    · rw [char_eq_of_toNat r '9' 57 h (by decide)]; decide
  all_goals decide

/-- A character passing the suit check is one of the four suit
characters. -/
theorem validSuit_mem (s : Char) (h : validSuit s = true) : s ∈ suitsStr := by
  unfold validSuit at h
  simp only [Bool.or_eq_true, beq_iff_eq] at h
  rcases h with ((rfl | rfl) | rfl) | rfl <;> decide

/-- The codec maps every valid card text to a card code in [0, 52). -/
theorem cardStrToInt_range (card : List Char) (h : isValidCard card = true) :
    0 ≤ cardStrToInt card ∧ cardStrToInt card < 52 := by
  rcases card with _ | ⟨r, card⟩
  · simp [isValidCard] at h
  rcases card with _ | ⟨s, card⟩
  · simp [isValidCard] at h
  rcases card with _ | ⟨x, card⟩
  swap
  · simp [isValidCard] at h
  rw [show isValidCard [r, s] = (validRank r && validSuit s) from rfl,
    Bool.and_eq_true] at h
  obtain ⟨hr, hs⟩ := h
  have hrm : ranksStr.indexOf r < 13 := by
    have := List.indexOf_lt_length.mpr (validRank_mem r hr)
    simpa [ranksStr] using this
  have hsm : suitsStr.indexOf s < 4 := by
    have := List.indexOf_lt_length.mpr (validSuit_mem s hs)
    simpa [suitsStr] using this
  unfold cardStrToInt
  simp only [List.getD_cons_zero, List.getD_cons_succ]
  omega

/-- The codec is injective on valid card texts. -/
theorem cardStrToInt_inj (c1 c2 : List Char) (h1 : isValidCard c1 = true)
    (h2 : isValidCard c2 = true) (heq : cardStrToInt c1 = cardStrToInt c2) : c1 = c2 := by
  rcases c1 with _ | ⟨r1, c1⟩
  · simp [isValidCard] at h1
  rcases c1 with _ | ⟨s1, c1⟩
  · simp [isValidCard] at h1
  rcases c1 with _ | ⟨x1, c1⟩
  swap
  · simp [isValidCard] at h1
  rcases c2 with _ | ⟨r2, c2⟩
  · simp [isValidCard] at h2
  rcases c2 with _ | ⟨s2, c2⟩
  · simp [isValidCard] at h2
  rcases c2 with _ | ⟨x2, c2⟩
  swap
  · simp [isValidCard] at h2
  rw [show isValidCard [r1, s1] = (validRank r1 && validSuit s1) from rfl,
    Bool.and_eq_true] at h1
  rw [show isValidCard [r2, s2] = (validRank r2 && validSuit s2) from rfl,
    Bool.and_eq_true] at h2
  have hr1 : ranksStr.indexOf r1 < 13 := by
    have := List.indexOf_lt_length.mpr (validRank_mem r1 h1.1)
    simpa [ranksStr] using this
  have hr2 : ranksStr.indexOf r2 < 13 := by
    have := List.indexOf_lt_length.mpr (validRank_mem r2 h2.1)
    simpa [ranksStr] using this
  unfold cardStrToInt at heq
  simp only [List.getD_cons_zero, List.getD_cons_succ] at heq
  have hre : ranksStr.indexOf r1 = ranksStr.indexOf r2 := by omega
  have hse : suitsStr.indexOf s1 = suitsStr.indexOf s2 := by omega
  have hreq : r1 = r2 :=
    (List.indexOf_inj (validRank_mem r1 h1.1) (validRank_mem r2 h2.1)).mp hre
  have hseq : s1 = s2 :=
    (List.indexOf_inj (validSuit_mem s1 h1.2) (validSuit_mem s2 h2.2)).mp hse
  rw [hreq, hseq]

/-- A byte list whose length is a multiple of four yields one chunk
per four bytes. -/
theorem chunk4_length_aux :
    ∀ (n : Nat) (b : List Nat), b.length ≤ n → b.length % 4 = 0 →
      (chunk4 b).length = b.length / 4 := by
  intro n
  induction n with
  | zero =>
    intro b hb h4
    have hb0 : b = [] := List.eq_nil_of_length_eq_zero (by omega)
    subst hb0
    rfl
  | succ m ih =>
    intro b hb h4
    rcases b with _ | ⟨b0, b⟩
    · rfl
    rcases b with _ | ⟨b1, b⟩
    · simp at h4
    rcases b with _ | ⟨b2, b⟩
    · simp at h4
    rcases b with _ | ⟨b3, rest⟩
    · simp at h4
    rw [show chunk4 (b0 :: b1 :: b2 :: b3 :: rest) = [b0, b1, b2, b3] :: chunk4 rest from rfl,
      List.length_cons,
      ih rest (by simp only [List.length_cons] at hb; omega)
        (by simp only [List.length_cons] at h4 ⊢; omega)]
    simp only [List.length_cons]
    omega

/-- C8: Loading the lookup-table resource returns the empty vector
exactly when the file is missing/unreadable or its byte length is not
a positive multiple of the 4-byte element width; otherwise it returns
`byte_length / 4` integers read from the file. -/
theorem read_vect_spec :
    (∀ file : Option (List Nat),
      (read_vect file = [] ↔
        file = none ∨ ∃ b, file = some b ∧ (b.length = 0 ∨ b.length % 4 ≠ 0))) ∧
    (∀ b : List Nat, b.length ≠ 0 → b.length % 4 = 0 →
      (read_vect (some b)).length = b.length / 4) := by
  constructor
  · intro file
    rcases file with _ | b
    · simp [read_vect]
    · rw [show read_vect (some b) =
        (if b.length = 0 ∨ b.length % 4 ≠ 0 then [] else (chunk4 b).map decodeI32) from rfl]
      by_cases hb : b.length = 0 ∨ b.length % 4 ≠ 0
      · rw [if_pos hb]
        simp only [true_iff, iff_true]
        exact Or.inr ⟨b, rfl, hb⟩
      · rw [if_neg hb]
        push_neg at hb
        obtain ⟨hb0, hb4⟩ := hb
        constructor
        · intro hmap
          have hlen := congrArg List.length hmap
          rw [List.length_map, chunk4_length_aux b.length b (le_refl _) hb4] at hlen
          simp only [List.length_nil] at hlen
          omega
        · rintro (h | ⟨b2, hb2, hor⟩)
          · exact absurd h (by simp)
          · injection hb2 with hbb
            subst hbb
            rcases hor with h0 | h4
            · exact absurd h0 hb0
            · exact absurd hb4 h4
  · intro b hb0 hb4
    rw [show read_vect (some b) =
      (if b.length = 0 ∨ b.length % 4 ≠ 0 then [] else (chunk4 b).map decodeI32) from rfl]
    rw [if_neg (by push_neg; exact ⟨hb0, hb4⟩), List.length_map,
      chunk4_length_aux b.length b (le_refl _) hb4]

/-- Witness for C8: a 3-byte file fails, a 4-byte file yields one
integer. -/
theorem read_vect_spec_witness :
    (read_vect (some [1, 2, 3]) = [] ↔
      (some [1, 2, 3] : Option (List Nat)) = none ∨
        ∃ b, (some [1, 2, 3] : Option (List Nat)) = some b ∧
          (b.length = 0 ∨ b.length % 4 ≠ 0)) ∧
    (read_vect (some [1, 2, 3, 4])).length = ([1, 2, 3, 4] : List Nat).length / 4 :=
  ⟨read_vect_spec.1 (some [1, 2, 3]),
   read_vect_spec.2 [1, 2, 3, 4] (by decide) (by decide)⟩

/-- A separator-free string is a single segment. -/
theorem splitChar_not_mem (sep : Char) (a : List Char) (ha : sep ∉ a) :
    splitChar sep a = [a] := by
  induction a with
  | nil => rfl
  | cons c rest ih =>
    rw [show splitChar sep (c :: rest) =
      (if c = sep then [] :: splitChar sep rest else
        match splitChar sep rest with
        | [] => [[c]]
        | t :: ts => (c :: t) :: ts) from rfl,
      if_neg (fun h => ha (by rw [h]; exact List.mem_cons_self _ _)),
      ih (fun h => ha (List.mem_cons_of_mem _ h))]

/-- Splitting peels off a leading separator-free segment. -/
theorem splitChar_append (sep : Char) (a b : List Char) (ha : sep ∉ a) :
    splitChar sep (a ++ sep :: b) = a :: splitChar sep b := by
  induction a with
  | nil =>
    rw [List.nil_append,
      show splitChar sep (sep :: b) =
        (if sep = sep then [] :: splitChar sep b else
          match splitChar sep b with
          | [] => [[sep]]
          | t :: ts => (sep :: t) :: ts) from rfl,
      if_pos rfl]
  | cons c rest ih =>
    rw [List.cons_append,
      show splitChar sep (c :: (rest ++ sep :: b)) =
        (if c = sep then [] :: splitChar sep (rest ++ sep :: b) else
          match splitChar sep (rest ++ sep :: b) with
          | [] => [[c]]
          | t :: ts => (c :: t) :: ts) from rfl,
      if_neg (fun h => ha (by rw [h]; exact List.mem_cons_self _ _)),
      ih (fun h => ha (List.mem_cons_of_mem _ h))]

/-- A four-field `|`-separated parameter string splits into its four
fields (the last one non-empty, so no trailing segment is dropped). -/
theorem cppSplit_four (a b c d : List Char)
    (ha : '|' ∉ a) (hb : '|' ∉ b) (hc : '|' ∉ c) (hd : '|' ∉ d) (hdne : d ≠ []) :
    cppSplit '|' (a ++ '|' :: (b ++ '|' :: (c ++ '|' :: d))) = [a, b, c, d] := by
  have hsne : a ++ '|' :: (b ++ '|' :: (c ++ '|' :: d)) ≠ [] := by
    intro h
    have := congrArg List.length h
    simp at this
  have hsp : splitChar '|' (a ++ '|' :: (b ++ '|' :: (c ++ '|' :: d))) = [a, b, c, d] := by
    rw [splitChar_append '|' a _ ha, splitChar_append '|' b _ hb,
      splitChar_append '|' c _ hc, splitChar_not_mem '|' d hd]
  unfold cppSplit
  rw [if_neg hsne, hsp]
  show (if ([a, b, c, d] : List (List Char)).getLast? = some [] then
      ([a, b, c, d] : List (List Char)).dropLast
    else [a, b, c, d]) = [a, b, c, d]
  rw [show ([a, b, c, d] : List (List Char)).getLast? = some d from rfl,
    if_neg (by simp [hdne])]

/-- A token that stays non-empty and invalid after space-stripping
makes the card-parsing loop abort with the empty list. -/
theorem parseCardsGo_invalid (toks : List (List Char)) (acc : List (List Char))
    (htok : ∃ tok ∈ toks, tok.filter (fun ch => ch ≠ ' ') ≠ [] ∧
      isValidCard (tok.filter (fun ch => ch ≠ ' ')) = false) :
    parseCardsGo toks acc = [] := by
  induction toks generalizing acc with
  | nil => obtain ⟨t, ht, _⟩ := htok; simp at ht
  | cons t rest ih =>
    rw [show parseCardsGo (t :: rest) acc =
      (if t.filter (fun ch => ch ≠ ' ') ≠ [] ∧
          isValidCard (t.filter (fun ch => ch ≠ ' ')) = true then
        parseCardsGo rest (t.filter (fun ch => ch ≠ ' ') :: acc)
      else if t.filter (fun ch => ch ≠ ' ') ≠ [] then []
      else parseCardsGo rest acc) from rfl]
    obtain ⟨tok, htokmem, hne, hinv⟩ := htok
    rcases List.mem_cons.mp htokmem with rfl | hmem
    · rw [if_neg (by rw [hinv]; rintro ⟨_, h⟩; exact Bool.false_ne_true h),
        if_pos hne]
    · by_cases hkeep : t.filter (fun ch => ch ≠ ' ') ≠ [] ∧
          isValidCard (t.filter (fun ch => ch ≠ ' ')) = true
      · rw [if_pos hkeep]
        exact ih _ ⟨tok, hmem, hne, hinv⟩
      · rw [if_neg hkeep]
        by_cases hte : t.filter (fun ch => ch ≠ ' ') ≠ []
        · rw [if_pos hte]
        · rw [if_neg hte]
          exact ih _ ⟨tok, hmem, hne, hinv⟩

/-- `parseCards` returns the empty list on any field holding an
invalid card token. -/
theorem parseCards_invalid (input : List Char)
    (htok : ∃ tok ∈ cppSplit ',' input, tok.filter (fun ch => ch ≠ ' ') ≠ [] ∧
      isValidCard (tok.filter (fun ch => ch ≠ ' ')) = false) :
    parseCards input = [] := by
  unfold parseCards
  by_cases hin : input = []
  · rw [if_pos hin]
  · rw [if_neg hin]
    exact parseCardsGo_invalid _ [] htok

/-- An error outcome is some structured error. -/
theorem isErr_exists (oc : CalcOutcome) (h : isErr oc = true) :
    ∃ k, oc = CalcOutcome.err k := by
  cases oc with
  | err k => exact ⟨k, rfl⟩
  | run b hh o i => simp [isErr] at h

/-- A CALC request whose hole field holds an invalid card token ends
in a structured error, never in a simulation run: the invalid token
empties the parsed hole, which fails the exactly-2-hole-cards check. -/
theorem handleCalc_invalid_hole (boardS holeS oppS iterS : List Char)
    (hb : '|' ∉ boardS) (hh : '|' ∉ holeS) (ho : '|' ∉ oppS) (hi : '|' ∉ iterS)
    (hiter : iterS ≠ [])
    (htok : ∃ tok ∈ cppSplit ',' holeS, tok.filter (fun ch => ch ≠ ' ') ≠ [] ∧
      isValidCard (tok.filter (fun ch => ch ≠ ' ')) = false) :
    ∃ k : ErrKind,
      handleCalc (boardS ++ '|' :: (holeS ++ '|' :: (oppS ++ '|' :: iterS))) =
        CalcOutcome.err k ∧
      ∀ board hole opp iters,
        handleCalc (boardS ++ '|' :: (holeS ++ '|' :: (oppS ++ '|' :: iterS))) ≠
          CalcOutcome.run board hole opp iters := by
  have hhole : parseCards holeS = [] := parseCards_invalid holeS htok
  have hmain : isErr (handleCalc (boardS ++ '|' :: (holeS ++ '|' :: (oppS ++ '|' :: iterS)))) =
      true := by
    unfold handleCalc
    rw [cppSplit_four boardS holeS oppS iterS hb hh ho hi hiter]
    rw [if_neg (by simp)]
    simp only [List.getD_cons_zero, List.getD_cons_succ]
    split
    · split
      · rfl
      · split
        · rfl
        · split
          · rfl
          · rw [hhole]
            split
            · rfl
            · rename_i hlen2
              simp at hlen2
    · rfl
  obtain ⟨k, hk⟩ := isErr_exists _ hmain
  exact ⟨k, hk,
    fun board hole opp iters hrun => by rw [hk] at hrun; exact CalcOutcome.noConfusion hrun⟩

/-- Expansion of `handleCalc` on a four-field request whose numeric
fields parse: the remaining validation chain, written without the
field-splitting plumbing. -/
theorem handleCalc_fields_some (boardS holeS oppS iterS : List Char)
    (hb : '|' ∉ boardS) (hh : '|' ∉ holeS) (ho : '|' ∉ oppS) (hi : '|' ∉ iterS)
    (hiter : iterS ≠ []) (opp iters : Int)
    (hoppv : stoiOpt oppS = some opp) (hitersv : stoiOpt iterS = some iters) :
    handleCalc (boardS ++ '|' :: (holeS ++ '|' :: (oppS ++ '|' :: iterS))) =
      (if opp < 1 ∨ opp > 8 then CalcOutcome.err .opp
       else if iters < 100 ∨ iters > 1000000 then CalcOutcome.err .iter
       else if (parseCards boardS).length > 5 then CalcOutcome.err .board5
       else if (parseCards holeS).length ≠ 2 then CalcOutcome.err .hole2
       else if ¬(parseCards boardS ++ parseCards holeS).Nodup then CalcOutcome.err .dup
       else CalcOutcome.run (parseCards boardS) (parseCards holeS) opp iters) := by
  unfold handleCalc
  rw [cppSplit_four boardS holeS oppS iterS hb hh ho hi hiter]
  simp only [List.getD_cons_zero, List.getD_cons_succ, hoppv, hitersv,
    List.length_cons, List.length_nil]
  rfl

/-- A repeated card across the parsed board and hole fields hits the
duplicate check of `handleCalc`. -/
theorem handleCalc_duplicate (boardS holeS oppS iterS : List Char)
    (hb : '|' ∉ boardS) (hh : '|' ∉ holeS) (ho : '|' ∉ oppS) (hi : '|' ∉ iterS)
    (hiter : iterS ≠ []) (opp iters : Int)
    (hoppv : stoiOpt oppS = some opp) (hitersv : stoiOpt iterS = some iters)
    (hoppr : ¬(opp < 1 ∨ opp > 8)) (hitersr : ¬(iters < 100 ∨ iters > 1000000))
    (hblen : ¬(parseCards boardS).length > 5)
    (hhlen : (parseCards holeS).length = 2)
    (hdup : ¬(parseCards boardS ++ parseCards holeS).Nodup) :
    handleCalc (boardS ++ '|' :: (holeS ++ '|' :: (oppS ++ '|' :: iterS))) =
      CalcOutcome.err .dup := by
  rw [handleCalc_fields_some boardS holeS oppS iterS hb hh ho hi hiter opp iters hoppv hitersv,
    if_neg hoppr, if_neg hitersr, if_neg hblen, if_neg (by simp [hhlen]), if_pos hdup]

/-- The CALC prefix is recovered by `take 5`. -/
theorem take_calcPrefix (params : List Char) :
    (calcPrefix ++ params).take 5 = calcPrefix := by
  rw [show (5 : Nat) = calcPrefix.length from rfl, List.take_left]

/-- The parameter string is recovered by `drop 5`. -/
theorem drop_calcPrefix (params : List Char) :
    (calcPrefix ++ params).drop 5 = params := by
  rw [show (5 : Nat) = calcPrefix.length from rfl, List.drop_left]

/-- A CALC command is never the EXIT command. -/
theorem calcPrefix_ne_exit (params : List Char) : calcPrefix ++ params ≠ exitChars := by
  intro heq
  have := congrArg List.length heq
  simp [calcPrefix, exitChars] at this

/-- One step of the daemon loop, written out. -/
theorem daemonRun_cons (ms : Bool) (cmd : List Char) (rest : List (List Char)) :
    daemonRun ms (cmd :: rest) =
      if trimRight cmd = exitChars then []
      else if (trimRight cmd).take 5 = calcPrefix then
        (if ms then [] else [DOut.marker]) ++
          [calcOutputs (handleCalc ((trimRight cmd).drop 5))] ++ daemonRun true rest
      else DOut.errOut .unknown :: daemonRun ms rest := rfl

/-- The daemon's step on a whitespace-clean CALC command: marker if
not yet sent, then the outcome line, then the loop with the marker
flag set. -/
theorem daemonRun_calc (ms : Bool) (params : List Char) (rest : List (List Char))
    (htrim : trimRight (calcPrefix ++ params) = calcPrefix ++ params) :
    daemonRun ms ((calcPrefix ++ params) :: rest) =
      (if ms then [] else [DOut.marker]) ++
        calcOutputs (handleCalc params) :: daemonRun true rest := by
  rw [daemonRun_cons, htrim, if_neg (calcPrefix_ne_exit params),
    if_pos (take_calcPrefix params), drop_calcPrefix params]
  simp

/-- A CALC outcome line is never the one-time marker. -/
theorem calcOutputs_ne_marker (oc : CalcOutcome) : calcOutputs oc ≠ DOut.marker := by
  cases oc <;> simp [calcOutputs]

/-- Once the marker flag is set, the loop never emits the marker
again. -/
theorem daemonRun_true_no_marker (cmds : List (List Char)) :
    DOut.marker ∉ daemonRun true cmds := by
  induction cmds with
  | nil => simp [daemonRun]
  | cons cmd rest ih =>
    rw [daemonRun_cons]
    split
    · simp
    · split
      · intro hmem
        simp only [if_pos, List.nil_append, List.cons_append, List.mem_cons] at hmem
        rcases hmem with h | h
        · exact calcOutputs_ne_marker _ h.symm
        · exact ih h
      · intro hmem
        rcases List.mem_cons.mp hmem with h | h
        · exact DOut.noConfusion h
        · exact ih h

/-- From a fresh session the marker is emitted at most once. -/
theorem daemonRun_false_marker_le (cmds : List (List Char)) :
    (daemonRun false cmds).count DOut.marker ≤ 1 := by
  induction cmds with
  | nil => simp [daemonRun]
  | cons cmd rest ih =>
    rw [daemonRun_cons]
    split
    · simp
    · split
      · have h0 : (daemonRun true rest).count DOut.marker = 0 :=
          List.count_eq_zero.mpr (daemonRun_true_no_marker rest)
        have h1 : DOut.marker ≠ calcOutputs (handleCalc ((trimRight cmd).drop 5)) :=
          fun h => calcOutputs_ne_marker _ h.symm
        simp [List.count_append, List.count_cons, h0, h1]
      · rw [show DOut.errOut .unknown :: daemonRun false rest =
          [DOut.errOut .unknown] ++ daemonRun false rest from rfl, List.count_append]
        have h2 : ([DOut.errOut .unknown] : List DOut).count DOut.marker = 0 := by decide
        omega

/-- A command that is neither EXIT nor a CALC emits one
unknown-command line and leaves the marker flag unchanged. -/
theorem daemonRun_skip (ms : Bool) (cmd : List Char) (rest : List (List Char))
    (hexit : trimRight cmd ≠ exitChars) (hcalc : (trimRight cmd).take 5 ≠ calcPrefix) :
    daemonRun ms (cmd :: rest) = DOut.errOut .unknown :: daemonRun ms rest := by
  rw [daemonRun_cons, if_neg hexit, if_neg hcalc]

/-- A run of non-EXIT, non-CALC commands contributes one
unknown-command line each, with the marker flag untouched. -/
theorem daemonRun_pre (ms : Bool) (pre tail : List (List Char))
    (hpre : ∀ p ∈ pre, trimRight p ≠ exitChars ∧ (trimRight p).take 5 ≠ calcPrefix) :
    daemonRun ms (pre ++ tail) =
      List.replicate pre.length (DOut.errOut .unknown) ++ daemonRun ms tail := by
  induction pre with
  | nil => simp
  | cons p rest ih =>
    rw [List.cons_append,
      daemonRun_skip ms p (rest ++ tail) (hpre p (List.mem_cons_self p rest)).1
        (hpre p (List.mem_cons_self p rest)).2,
      ih (fun q hq => hpre q (List.mem_cons_of_mem p hq))]
    simp [List.replicate_succ]

/-- Counterexample to C2 as stated: a CALC request whose board field
holds the invalid card token `Xx` is answered with a success line, not
an error — `parseCards` silently turns the whole board field into an
empty board and the simulation runs. -/
theorem calc_invalid_board_counterexample :
    isValidCard ['X', 'x'] = false ∧
    handleCalc ("Xx|As,Kh|2|1000".toList) =
      CalcOutcome.run [] [['A', 's'], ['K', 'h']] 2 1000 ∧
    daemonSession [("CALC Xx|As,Kh|2|1000".toList)] =
      [DOut.ready, DOut.marker, DOut.success] := by decide

/-- C2 (corrected): an invalid card token in the HOLE field of a CALC
request yields a structured error line and no simulation run, and the
daemon loop continues with the remaining commands.  The claim as
stated also covered the board field; there an invalid token instead
silently empties the parsed board and the simulation runs (see the
counterexample), so the error guarantee holds only for the hole
field. -/
theorem calc_invalid_card_error (boardS holeS oppS iterS : List Char)
    (hb : '|' ∉ boardS) (hh : '|' ∉ holeS) (ho : '|' ∉ oppS) (hi : '|' ∉ iterS)
    (hiter : iterS ≠ [])
    (htok : ∃ tok ∈ cppSplit ',' holeS, tok.filter (fun ch => ch ≠ ' ') ≠ [] ∧
      isValidCard (tok.filter (fun ch => ch ≠ ' ')) = false)
    (ms : Bool) (rest : List (List Char))
    (htrim : trimRight (calcPrefix ++ (boardS ++ '|' :: (holeS ++ '|' :: (oppS ++ '|' :: iterS)))) =
      calcPrefix ++ (boardS ++ '|' :: (holeS ++ '|' :: (oppS ++ '|' :: iterS)))) :
    ∃ k : ErrKind,
      handleCalc (boardS ++ '|' :: (holeS ++ '|' :: (oppS ++ '|' :: iterS))) =
        CalcOutcome.err k ∧
      (∀ board hole opp iters,
        handleCalc (boardS ++ '|' :: (holeS ++ '|' :: (oppS ++ '|' :: iterS))) ≠
          CalcOutcome.run board hole opp iters) ∧
      daemonRun ms
          ((calcPrefix ++ (boardS ++ '|' :: (holeS ++ '|' :: (oppS ++ '|' :: iterS)))) :: rest) =
        (if ms then [] else [DOut.marker]) ++ DOut.errOut k :: daemonRun true rest := by
  obtain ⟨k, hk, hnorun⟩ := handleCalc_invalid_hole boardS holeS oppS iterS hb hh ho hi hiter htok
  refine ⟨k, hk, hnorun, ?_⟩
  rw [daemonRun_calc ms _ rest htrim, hk]
  rfl

/-- Witness for C2 at the request `CALC As|Ax,Kh|2|1000` (the hole
token `Ax` has an invalid suit). -/
theorem calc_invalid_card_error_witness :
    ∃ k : ErrKind,
      handleCalc (['A', 's'] ++ '|' :: (['A', 'x', ',', 'K', 'h'] ++ '|' ::
          (['2'] ++ '|' :: ['1', '0', '0', '0']))) = CalcOutcome.err k ∧
      (∀ board hole opp iters,
        handleCalc (['A', 's'] ++ '|' :: (['A', 'x', ',', 'K', 'h'] ++ '|' ::
            (['2'] ++ '|' :: ['1', '0', '0', '0']))) ≠
          CalcOutcome.run board hole opp iters) ∧
      daemonRun false
          ((calcPrefix ++ (['A', 's'] ++ '|' :: (['A', 'x', ',', 'K', 'h'] ++ '|' ::
            (['2'] ++ '|' :: ['1', '0', '0', '0'])))) :: []) =
        (if false then [] else [DOut.marker]) ++ DOut.errOut k :: daemonRun true [] :=
  calc_invalid_card_error ['A', 's'] ['A', 'x', ',', 'K', 'h'] ['2'] ['1', '0', '0', '0']
    (by decide) (by decide) (by decide) (by decide) (by decide) (by decide) false [] (by decide)

/-- Counterexample to C4 as stated: a session whose only CALC request
FAILS (error response, no success line) still emits the one-time
marker — the code sends it on the first CALC command, successful or
not. -/
theorem daemon_marker_counterexample :
    DOut.marker ∈ daemonSession [['C', 'A', 'L', 'C', ' ', 'x']] ∧
    DOut.success ∉ daemonSession [['C', 'A', 'L', 'C', ' ', 'x']] := by decide

/-- C4 (corrected): the one-time marker is emitted at most once per
session and never again once sent; it is emitted on the FIRST CALC
command — whether or not that request succeeds — not on the first
successful request: after any run of non-CALC commands, the first CALC
command produces the marker followed by its outcome line. -/
theorem daemon_marker_on_first_calc (pre : List (List Char))
    (hpre : ∀ p ∈ pre, trimRight p ≠ exitChars ∧ (trimRight p).take 5 ≠ calcPrefix)
    (params : List Char) (rest : List (List Char))
    (htrim : trimRight (calcPrefix ++ params) = calcPrefix ++ params) :
    (∀ cmds, (daemonRun true cmds).count DOut.marker = 0) ∧
    (∀ cmds, (daemonRun false cmds).count DOut.marker ≤ 1) ∧
    daemonRun false (pre ++ (calcPrefix ++ params) :: rest) =
      List.replicate pre.length (DOut.errOut .unknown) ++
        DOut.marker :: calcOutputs (handleCalc params) :: daemonRun true rest := by
  refine ⟨fun cmds => List.count_eq_zero.mpr (daemonRun_true_no_marker cmds),
    daemonRun_false_marker_le, ?_⟩
  rw [daemonRun_pre false pre _ hpre, daemonRun_calc false params rest htrim]
  rfl

/-- Witness for C4: one unknown command, then a failing CALC. -/
theorem daemon_marker_on_first_calc_witness :
    (∀ cmds, (daemonRun true cmds).count DOut.marker = 0) ∧
    (∀ cmds, (daemonRun false cmds).count DOut.marker ≤ 1) ∧
    daemonRun false ([['S', 'T', 'A', 'T', 'U', 'S']] ++ (calcPrefix ++ ['x']) :: []) =
      List.replicate 1 (DOut.errOut .unknown) ++
        DOut.marker :: calcOutputs (handleCalc ['x']) :: daemonRun true [] :=
  daemon_marker_on_first_calc [['S', 'T', 'A', 'T', 'U', 'S']] (by decide) ['x'] [] (by decide)

/-- C6: a CALC request repeating a card across its board and hole
fields (both fields otherwise passing their checks) is answered with
the duplicate-card error, never runs a simulation, and the daemon loop
goes on to serve the remaining commands. -/
theorem calc_duplicate_card (boardS holeS oppS iterS : List Char)
    (hb : '|' ∉ boardS) (hh : '|' ∉ holeS) (ho : '|' ∉ oppS) (hi : '|' ∉ iterS)
    (hiter : iterS ≠ []) (opp iters : Int)
    (hoppv : stoiOpt oppS = some opp) (hitersv : stoiOpt iterS = some iters)
    (hoppr : ¬(opp < 1 ∨ opp > 8)) (hitersr : ¬(iters < 100 ∨ iters > 1000000))
    (hblen : ¬(parseCards boardS).length > 5)
    (hhlen : (parseCards holeS).length = 2)
    (hdup : ¬(parseCards boardS ++ parseCards holeS).Nodup)
    (ms : Bool) (rest : List (List Char))
    (htrim : trimRight (calcPrefix ++ (boardS ++ '|' :: (holeS ++ '|' :: (oppS ++ '|' :: iterS)))) =
      calcPrefix ++ (boardS ++ '|' :: (holeS ++ '|' :: (oppS ++ '|' :: iterS)))) :
    handleCalc (boardS ++ '|' :: (holeS ++ '|' :: (oppS ++ '|' :: iterS))) =
      CalcOutcome.err .dup ∧
    (∀ board hole o i,
      handleCalc (boardS ++ '|' :: (holeS ++ '|' :: (oppS ++ '|' :: iterS))) ≠
        CalcOutcome.run board hole o i) ∧
    daemonRun ms
        ((calcPrefix ++ (boardS ++ '|' :: (holeS ++ '|' :: (oppS ++ '|' :: iterS)))) :: rest) =
      (if ms then [] else [DOut.marker]) ++ DOut.errOut .dup :: daemonRun true rest := by
  have hmain := handleCalc_duplicate boardS holeS oppS iterS hb hh ho hi hiter opp iters
    hoppv hitersv hoppr hitersr hblen hhlen hdup
  refine ⟨hmain, fun board hole o i hrun => by
    rw [hmain] at hrun; exact CalcOutcome.noConfusion hrun, ?_⟩
  rw [daemonRun_calc ms _ rest htrim, hmain]
  rfl

/-- Witness for C6 at the spec's own example: board `As`, hole
`As,Kh`. -/
theorem calc_duplicate_card_witness :
    handleCalc (['A', 's'] ++ '|' :: (['A', 's', ',', 'K', 'h'] ++ '|' ::
        (['2'] ++ '|' :: ['1', '0', '0', '0']))) = CalcOutcome.err .dup ∧
    (∀ board hole o i,
      handleCalc (['A', 's'] ++ '|' :: (['A', 's', ',', 'K', 'h'] ++ '|' ::
          (['2'] ++ '|' :: ['1', '0', '0', '0']))) ≠
        CalcOutcome.run board hole o i) ∧
    daemonRun false
        ((calcPrefix ++ (['A', 's'] ++ '|' :: (['A', 's', ',', 'K', 'h'] ++ '|' ::
          (['2'] ++ '|' :: ['1', '0', '0', '0'])))) :: []) =
      (if false then [] else [DOut.marker]) ++ DOut.errOut .dup :: daemonRun true [] :=
  calc_duplicate_card ['A', 's'] ['A', 's', ',', 'K', 'h'] ['2'] ['1', '0', '0', '0']
    (by decide) (by decide) (by decide) (by decide) (by decide) 2 1000
    (by decide) (by decide) (by decide) (by decide) (by decide) (by decide) (by decide)
    false [] (by decide)

/-- C10: for any request passing the daemon's field validation — at
most 5 valid board cards, exactly 2 valid hole cards, all distinct,
opponents between 1 and 8 — the remaining deck always holds at least
the `2 * opponents + 5 - |board|` cards a trial must sample, so the
insufficient-cards failure branch of `fill_empty` is unreachable. -/
theorem fill_empty_guard_unreachable (board hole : List (List Char)) (opp : Int)
    (hbv : ∀ c ∈ board, isValidCard c = true)
    (hhv : ∀ c ∈ hole, isValidCard c = true)
    (hnd : (board ++ hole).Nodup)
    (hblen : board.length ≤ 5) (hhlen : hole.length = 2)
    (hopp : 1 ≤ opp ∧ opp ≤ 8) :
    fill_empty_insufficient (board.map cardStrToInt) [hole.map cardStrToInt] opp = false := by
  have hallv : ∀ c ∈ board ++ hole, isValidCard c = true := by
    intro c hc
    rcases List.mem_append.mp hc with h | h
    · exact hbv c h
    · exact hhv c h
  have hcomm : ∀ c ∈ board.map cardStrToInt, 0 ≤ c ∧ c < 52 := by
    intro c hc
    obtain ⟨x, hx, rfl⟩ := List.mem_map.mp hc
    exact cardStrToInt_range x (hbv x hx)
  have hhands : ∀ h ∈ [hole.map cardStrToInt], ∀ c ∈ h, 0 ≤ c ∧ c < 52 := by
    intro h hhm c hc
    rw [List.mem_singleton] at hhm
    subst hhm
    obtain ⟨x, hx, rfl⟩ := List.mem_map.mp hc
    exact cardStrToInt_range x (hhv x hx)
  have hh2 : ∀ h ∈ [hole.map cardStrToInt], h.length = 2 := by
    intro h hhm
    rw [List.mem_singleton] at hhm
    subst hhm
    rw [List.length_map, hhlen]
  have hndmap : (board.map cardStrToInt ++ ([hole.map cardStrToInt]).join).Nodup := by
    have hrw : board.map cardStrToInt ++ ([hole.map cardStrToInt]).join =
        (board ++ hole).map cardStrToInt := by
      simp [List.map_append]
    rw [hrw]
    exact List.Nodup.map_on
      (fun x hx y hy hxy => cardStrToInt_inj x y (hallv x hx) (hallv y hy) hxy) hnd
  have hlen := get_remaining_length (board.map cardStrToInt) [hole.map cardStrToInt]
    hcomm hhands hh2 hndmap
  unfold fill_empty_insufficient fill_empty_needed
  rw [hlen]
  simp only [List.length_map, List.length_singleton]
  rw [decide_eq_false_iff_not]
  omega

/-- Witness for C10 at a one-card board, two hole cards and the
maximum of 8 opponents. -/
theorem fill_empty_guard_unreachable_witness :
    fill_empty_insufficient (([[ 'A', 's']]).map cardStrToInt)
      [([['K', 'h'], ['Q', 'd']]).map cardStrToInt] 8 = false :=
  fill_empty_guard_unreachable [['A', 's']] [['K', 'h'], ['Q', 'd']] 8
    (by decide) (by decide) (by decide) (by decide) (by decide) (by decide)

end MonteLab
